import Mathlib

/-!
# golang-json-sync-service: path-addressed JSON updates and room broadcast

A shallow embedding of `handlers/websocket.go` (`updateJSON`, `applyJSONUpdate`,
`broadcastUpdate`, the join/leave bookkeeping of `HandleWebSocket`) together with the
properties of the specification that can be settled on it.

Conventions of the embedding:

* the decoded document (`interface{}` produced by `encoding/json`) is the inductive type
  `JSON`; Go maps are association lists read and written through `GoMap`;
* a Go run-time panic (index out of range) is the result `none`;
* `log.Println` calls are returned as a list of `LogLine`s;
* writes through Go references (slices and maps are reference types, `&list[index]` points
  into the backing array) are modelled by rebuilding the enclosing container.
-/

namespace Handlers

/-! ## Go maps as association lists -/

namespace GoMap

/-- Go map read `v, ok := m[k]`: the value stored under `k`, `none` when `ok` is false. -/
def get {κ ν : Type} [DecidableEq κ] : List (κ × ν) → κ → Option ν
  | [], _ => none
  | (k', v) :: rest, k => if k' = k then some v else get rest k

/-- Go map write `m[k] = v`: overwrite the entry of `k` when present, add one otherwise. -/
def set {κ ν : Type} [DecidableEq κ] : List (κ × ν) → κ → ν → List (κ × ν)
  | [], k, v => [(k, v)]
  | (k', v') :: rest, k, v => if k' = k then (k, v) :: rest else (k', v') :: set rest k v

/-- Go `delete(m, k)`. -/
def delete {κ ν : Type} [DecidableEq κ] (m : List (κ × ν)) (k : κ) : List (κ × ν) :=
  m.filter (fun e => decide (e.1 ≠ k))

/-- Key set of a Go map, in the order of the association list. -/
def keys {κ ν : Type} (m : List (κ × ν)) : List κ := m.map Prod.fst

end GoMap

/-! ## Decoded JSON values -/

/-- The value `encoding/json` decodes into an `interface{}`: `nil`, `bool`, `float64`,
`string`, `[]interface{}` and `map[string]interface{}`. Numbers are never inspected by the
code below; they are carried as integers. -/
inductive JSON where
  | null
  | bool (b : Bool)
  | number (n : Int)
  | string (s : String)
  | array (list : List JSON)
  | object (m : List (String × JSON))

/-- The lines `updateJSON` writes with `log.Println`, one constructor per message text. -/
inductive LogLine where
  /-- Message "List index out of range:" (navigation and final segment). -/
  | listIndexOutOfRange (key : String)
  /-- Message "Expected list at key:". -/
  | expectedListAtKey (key : String)
  /-- Message "Key not found:". -/
  | keyNotFound (key : String)
  /-- Message "Invalid data structure at key:". -/
  | invalidDataStructureAtKey (key : String)
  /-- Message "Expected list at final key:". -/
  | expectedListAtFinalKey (key : String)
  /-- Message "Invalid data structure for final key:". -/
  | invalidDataStructureForFinalKey (key : String)
  deriving DecidableEq

/-! ## The Go library functions used by `updateJSON` -/

/-- Width of Go's `int` (`strconv.IntSize`) on the 64-bit targets the service is built for. -/
def intSize : Nat := 64

/-- Digit loop of `strconv.ParseUint` in base 10: every byte must be one of `0`..`9`;
the accumulator is unbounded here and the range is checked by the caller. -/
def parseDigits : List Char → Nat → Option Nat
  | [], n => some n
  | c :: cs, n => if c.isDigit then parseDigits cs (n * 10 + (c.toNat - 48)) else none

/-- Go `strconv.ParseUint(s, 10, intSize)`: `none` when it returns an error (empty input,
a byte that is not a decimal digit, or a value of `2^intSize` or more). -/
def ParseUint (s : List Char) : Option Nat :=
  match s with
  | [] => none
  | _ :: _ =>
    match parseDigits s 0 with
    | none => none
    | some n => if n < 2 ^ intSize then some n else none

/-- Go `strconv.ParseInt(s, 10, 0)`: an optional sign `+` or `-`, then `ParseUint`, then
the signed range check against the cutoff `2^(intSize-1)`. -/
def ParseInt (s : List Char) : Option Int :=
  match s with
  | [] => none
  | c :: cs =>
    if c = '-' then
      match ParseUint cs with
      | none => none
      | some un => if un > 2 ^ (intSize - 1) then none else some (-(un : Int))
    else
      match ParseUint (if c = '+' then cs else c :: cs) with
      | none => none
      | some un => if un ≥ 2 ^ (intSize - 1) then none else some (un : Int)

/-- Go `strconv.Atoi(s)`, which is `ParseInt(s, 10, 0)` converted to `int`; `none` stands
for `err != nil`. -/
def Atoi (s : String) : Option Int := ParseInt s.data

/-- Splitting of a byte string on the dot, as `strings.Split(s, ".")` does: the pieces
between consecutive dots, empty pieces included. -/
def splitDots : List Char → List (List Char)
  | [] => [[]]
  | c :: cs =>
    if c = '.' then [] :: splitDots cs
    else
      match splitDots cs with
      | [] => [[c]]
      | seg :: rest => (c :: seg) :: rest

/-- Go `strings.Split(path, ".")`. -/
def stringsSplit (path : String) : List String := (splitDots path.data).map String.mk

/-- Go slice read `list[index]`: a run-time panic (`none`) unless `0 ≤ index < len(list)`. -/
def sliceGet (list : List JSON) (index : Int) : Option JSON :=
  if 0 ≤ index then list[index.toNat]? else none

/-- Go slice write `list[index] = value`: a run-time panic (`none`) unless
`0 ≤ index < len(list)`. -/
def sliceSet (list : List JSON) (index : Int) (value : JSON) : Option (List JSON) :=
  if 0 ≤ index ∧ index.toNat < list.length then some (list.set index.toNat value) else none

/-! ## `updateJSON` -/

/-- The block "Set the final value" of `updateJSON` (lines 149-168), run on the value
`*data` the navigation stopped at. -/
def setFinal (data : JSON) (lastKey : String) (value : JSON) : Option (JSON × List LogLine) :=
  match Atoi lastKey with
  | some index =>
    match data with
    | .array list =>
      if 0 ≤ index ∧ index < list.length then
        match sliceSet list index value with
        | none => none
        | some list' => some (.array list', [])
      else some (data, [.listIndexOutOfRange lastKey])
    | _ => some (data, [.expectedListAtFinalKey lastKey])
  | none =>
    match data with
    | .object nestedMap => some (.object (GoMap.set nestedMap lastKey value), [])
    | _ => some (data, [.invalidDataStructureForFinalKey lastKey])

/-- The navigation loop of `updateJSON` (lines 119-147) followed by the final write.
`data` is the value under the pointer `data`; each iteration either moves the pointer into
an element (`&list[index]`, or the value found under `key`) or logs and returns. The value
returned is `*data` after the call: what was written below the pointer is visible through
it, because the slice element and the nested map are shared with the parent. -/
def updateAt (data : JSON) : List String → String → JSON → Option (JSON × List LogLine)
  | [], lastKey, value => setFinal data lastKey value
  | key :: rest, lastKey, value =>
    match Atoi key with
    | some index =>
      match data with
      | .array list =>
        if 0 ≤ index ∧ index < list.length then
          match sliceGet list index with
          | none => none
          | some elem =>
            match updateAt elem rest lastKey value with
            | none => none
            | some (elem', log) => some (.array (list.set index.toNat elem'), log)
        else some (data, [.listIndexOutOfRange key])
      | _ => some (data, [.expectedListAtKey key])
    | none =>
      match data with
      | .object nestedMap =>
        match GoMap.get nestedMap key with
        | some nestedData =>
          match updateAt nestedData rest lastKey value with
          | none => none
          | some (nestedData', log) => some (.object (GoMap.set nestedMap key nestedData'), log)
        | none => some (data, [.keyNotFound key])
      | _ => some (data, [.invalidDataStructureAtKey key])

/-- Go `updateJSON(data, path, value)`: the document after the call and the lines logged,
or `none` when the call panics. `keys[len(keys)-1]` and `keys[:len(keys)-1]` panic on an
empty `keys`. -/
def updateJSON (data : JSON) (path : String) (value : JSON) : Option (JSON × List LogLine) :=
  let keys := stringsSplit path
  match keys.getLast? with
  | none => none
  | some lastKey => updateAt data keys.dropLast lastKey value

/-! ## The room registry -/

/-- Identity of a `*websocket.Conn`. -/
abbrev Conn := Nat

/-- The global `roomClients`, of Go type `map[string]map[*websocket.Conn]bool`. -/
abbrev Registry := List (String × List (Conn × Bool))

/-- Sessions registered in room `uuid`: the keys of `roomClients[uuid]`, none when the
room has no entry (a nil map). -/
def members (roomClients : Registry) (uuid : String) : List Conn :=
  match GoMap.get roomClients uuid with
  | some room => GoMap.keys room
  | none => []

/-- "Add client to the room" in `HandleWebSocket` (lines 49-54): make the room's map when
`roomClients[uuid] == nil`, then `roomClients[uuid][conn] = true`. -/
def addClient (roomClients : Registry) (uuid : String) (conn : Conn) : Registry :=
  let room : List (Conn × Bool) :=
    match GoMap.get roomClients uuid with
    | none => []
    | some room => room
  GoMap.set roomClients uuid (GoMap.set room conn true)

/-- Go `delete(roomClients[uuid], conn)`, the statement of the deferred disconnect cleanup
(line 59) and of the failed write in `broadcastUpdate` (line 179). Deleting from a nil map
is a no-op; otherwise the room's map is updated in place. -/
def removeClient (roomClients : Registry) (uuid : String) (conn : Conn) : Registry :=
  match GoMap.get roomClients uuid with
  | none => roomClients
  | some room => GoMap.set roomClients uuid (GoMap.delete room conn)

/-- Go `broadcastUpdate(uuid, message)`. `write client message` tells whether
`client.WriteMessage` returns without error. The loop ranges over the sessions of the room
(only the session being visited is ever deleted, so each one is visited once); the result
is the registry after the call and the sessions a write was attempted on, in order. -/
def broadcastUpdate (write : Conn → String → Bool) (roomClients : Registry) (uuid : String)
    (message : String) : Registry × List Conn :=
  (members roomClients uuid).foldl
    (fun (acc : Registry × List Conn) client =>
      if write client message then (acc.1, acc.2 ++ [client])
      else (removeClient acc.1 uuid client, acc.2 ++ [client]))
    (roomClients, [])

/-! ## The persistence store and the message handler -/

/-- Bytes held in Redis, represented by what `json.Unmarshal` makes of them: a document,
or an error (the empty string returned together with `redis.Nil` is of the second kind). -/
inductive Payload where
  | json (doc : JSON)
  | undecodable

/-- Result of `rdb.Get(ctx, key).Result()`. -/
inductive GetResult where
  | ok (val : Payload)
  | redisNil
  | error

/-- The Redis server seen through the client: its keyspace and whether commands reach it.
Expiry of keys (the 30 day TTL) is not modelled. -/
structure Redis where
  reachable : Bool
  data : List (String × Payload)

/-- Redis command `rdb.Get`. -/
def Redis.Get (rdb : Redis) (key : String) : GetResult :=
  if rdb.reachable then
    match GoMap.get rdb.data key with
    | some val => .ok val
    | none => .redisNil
  else .error

/-- Redis command `rdb.Set`; the boolean tells whether `Err()` is nil. -/
def Redis.Set (rdb : Redis) (key : String) (val : Payload) : Redis × Bool :=
  if rdb.reachable then (⟨rdb.reachable, GoMap.set rdb.data key val⟩, true) else (rdb, false)

/-- Go `json.Unmarshal([]byte(val), &jsonData)`; `none` stands for `err != nil`. -/
def jsonUnmarshal : Payload → Option JSON
  | .json doc => some doc
  | .undecodable => none

/-- Go `json.Marshal(jsonData)` on a decoded document, which always succeeds. -/
def jsonMarshal (doc : JSON) : Option Payload := some (.json doc)

/-- The update envelope `Message` of `handlers/api.go`. -/
structure Message where
  Path : String
  Value : JSON

/-- Lines 86-107 of `applyJSONUpdate`: fetch, decode, `updateJSON`, encode. The outer
`none` is a panic; the inner `none` is an early `return`; otherwise the bytes to store. -/
def applyJSONUpdate.prepare (rdb : Redis) (uuid : String) (msg : Message) :
    Option (Option Payload) :=
  match rdb.Get uuid with
  | .error => some none
  | r =>
    let val : Payload :=
      match r with
      | .ok val => val
      | _ => .undecodable
    match jsonUnmarshal val with
    | none => some none
    | some jsonData =>
      match updateJSON jsonData msg.Path msg.Value with
      | none => none
      | some (jsonData', _) =>
        match jsonMarshal jsonData' with
        | none => some none
        | some jsonStr => some (some jsonStr)

/-- Go `applyJSONUpdate(rdb, uuid, msg)`: the store after the call, `none` on a panic. -/
def applyJSONUpdate (rdb : Redis) (uuid : String) (msg : Message) : Option Redis :=
  match applyJSONUpdate.prepare rdb uuid msg with
  | none => none
  | some none => some rdb
  | some (some jsonStr) => some (rdb.Set uuid jsonStr).1

/-- One frame read by the loop of `HandleWebSocket`: the bytes received, and the result of
`json.Unmarshal(message, &msg)` (`none` for an invalid message format). -/
structure Frame where
  raw : String
  decoded : Option Message

/-- One iteration of the read loop of `HandleWebSocket` (lines 70-81) on a frame that was
read without error: the store and registry afterwards and the sessions the raw message was
written to; `none` on a panic. -/
def HandleWebSocket.handleFrame (write : Conn → String → Bool) (rdb : Redis)
    (roomClients : Registry) (uuid : String) (frame : Frame) :
    Option (Redis × Registry × List Conn) :=
  match frame.decoded with
  | none => some (rdb, roomClients, [])
  | some msg =>
    match applyJSONUpdate rdb uuid msg with
    | none => none
    | some rdb' =>
      let r := broadcastUpdate write roomClients uuid frame.raw
      some (rdb', r.1, r.2)

/-- Outcome of the connection phase of `HandleWebSocket`. -/
inductive JoinResult where
  /-- Status 404 with error "UUID not found". -/
  | notFound
  /-- Status 500 with error "Redis error". -/
  | internalServerError
  /-- The upgrade failed; only a log line is written. -/
  | upgradeFailed
  /-- The session is registered and the read loop starts. -/
  | joined (conn : Conn)
  deriving DecidableEq

/-- Lines 28-54 of `HandleWebSocket`: the existence check, the upgrade (`upgrade` is the
connection it yields, `none` when it fails) and the registration. -/
def HandleWebSocket.join (rdb : Redis) (uuid : String) (upgrade : Option Conn)
    (roomClients : Registry) : JoinResult × Registry :=
  match rdb.Get uuid with
  | .redisNil => (.notFound, roomClients)
  | .error => (.internalServerError, roomClients)
  | .ok _ =>
    match upgrade with
    | none => (.upgradeFailed, roomClients)
    | some conn => (.joined conn, addClient roomClients uuid conn)

/-! ## Two handlers updating the same room -/

/-- Progress of one handler inside `applyJSONUpdate`. -/
inductive Progress where
  /-- Nothing done yet. -/
  | start
  /-- Lines 86-107 done; `jsonStr` is held locally and `rdb.Set` is next. -/
  | prepared (jsonStr : Payload)
  /-- The call has returned. -/
  | done

/-- Two goroutines, each running `applyJSONUpdate` once on the same room. No lock is
taken around the call, so the scheduler may switch between the Redis commands. -/
structure Race where
  rdb : Redis
  first : Progress
  second : Progress

/-- One handler advances by one Redis command: from `start` it runs lines 86-107, from
`prepared` it runs `rdb.Set`. `none` on a panic. -/
def Race.advance (rdb : Redis) (uuid : String) (msg : Message) :
    Progress → Option (Redis × Progress)
  | .start =>
    match applyJSONUpdate.prepare rdb uuid msg with
    | none => none
    | some none => some (rdb, .done)
    | some (some jsonStr) => some (rdb, .prepared jsonStr)
  | .prepared jsonStr => some ((rdb.Set uuid jsonStr).1, .done)
  | .done => some (rdb, .done)

/-- The scheduler lets the first (`true`) or the second (`false`) handler advance. -/
def Race.step (uuid : String) (msgA msgB : Message) (s : Race) (who : Bool) : Option Race :=
  if who then
    match Race.advance s.rdb uuid msgA s.first with
    | none => none
    | some (rdb, p) => some ⟨rdb, p, s.second⟩
  else
    match Race.advance s.rdb uuid msgB s.second with
    | none => none
    | some (rdb, p) => some ⟨rdb, s.first, p⟩

/-- Run a schedule from the state where both handlers are about to start. -/
def Race.run (uuid : String) (msgA msgB : Message) (rdb : Redis) (schedule : List Bool) :
    Option Race :=
  schedule.foldlM (Race.step uuid msgA msgB) ⟨rdb, .start, .start⟩

/-! ## Definitions used to state the properties

The definitions from here on are not part of the embedded code: they read a document
along a path, name the failure kinds of the specification, describe the numerals
`strconv.Atoi` accepts, and collect the runs of the registry and of two racing handlers. -/

/-! ### Reading a document along a path -/

/-- How `updateJSON` reads one path segment: an array index when `strconv.Atoi` accepts it,
an object key otherwise. -/
inductive Segment where
  | index (i : Int)
  | key (s : String)
  deriving DecidableEq

/-- The reading `updateJSON` gives to the segment `s`. -/
def segmentOf (s : String) : Segment :=
  match Atoi s with
  | some i => .index i
  | none => .key s

/-- One step of reading: the element of an array selected by an index, the entry of an
object selected by a key; `none` when the segment does not resolve in `data`. -/
def child (data : JSON) : Segment → Option JSON
  | .index i =>
    match data with
    | .array list => if 0 ≤ i then list[i.toNat]? else none
    | _ => none
  | .key k =>
    match data with
    | .object m => GoMap.get m k
    | _ => none

/-- The value found in `data` by following `keys`, each segment read as `segmentOf` reads
it. `none` when a segment does not resolve. -/
def getPath (data : JSON) : List String → Option JSON
  | [] => some data
  | key :: rest =>
    match child data (segmentOf key) with
    | some elem => getPath elem rest
    | none => none

/-- The container `data` with `value` at the place of the segment `seg`: an existing
element of an array is replaced, an entry of an object is set (added when the key is
absent); in every other case `data` itself. -/
def replaceChild (data : JSON) (seg : Segment) (value : JSON) : JSON :=
  match seg with
  | .index i =>
    match data with
    | .array list => if 0 ≤ i ∧ i < list.length then .array (list.set i.toNat value) else data
    | _ => data
  | .key k =>
    match data with
    | .object m => .object (GoMap.set m k value)
    | _ => data

/-- Two paths part ways: at the first position where both have a segment and the segments
differ. Neither is then an initial part of the other. -/
def divergent : List Segment → List Segment → Bool
  | a :: p, b :: q => if a = b then divergent p q else true
  | _, _ => false

/-- A place in a container, named without reference to how path segments are read: the
position of an element of an array, or the name of an entry of an object, whatever the
name looks like (the key "2024" of an object is the place `entry "2024"`). -/
inductive Place where
  | elem (i : Nat)
  | entry (k : String)
  deriving DecidableEq

/-- The place a segment addresses once it has been read as an index or as a key. -/
def placeOf : Segment → Place
  | .index i => .elem i.toNat
  | .key k => .entry k

/-- The value held at a place of `data`: element `i` of an array, the entry named `k` of
an object; `none` when `data` has no such place. -/
def childAt (data : JSON) : Place → Option JSON
  | .elem i =>
    match data with
    | .array list => list[i]?
    | _ => none
  | .entry k =>
    match data with
    | .object m => GoMap.get m k
    | _ => none

/-- The value found in `data` by going from place to place; `none` when a place on the way
does not exist. Every element of every array and every entry of every object of the
document, at any depth, is the value at one such list of places. -/
def valueAt (data : JSON) : List Place → Option JSON
  | [] => some data
  | l :: rest =>
    match childAt data l with
    | some e => valueAt e rest
    | none => none

/-- Two lists of places part ways: at the first position where both have a place and the
places differ. Neither is then an initial part of the other. -/
def apart : List Place → List Place → Bool
  | a :: p, b :: q => if a = b then apart p q else true
  | _, _ => false

/-- The document `data` with `value` put at a list of places and nothing else touched: the
containers on the way are kept, with the one element or entry on the way replaced; at the
last place an existing element or entry is replaced, and an entry that does not exist yet
is added to the object. When the places do not lead anywhere, `data` itself. -/
def withValueAt (data : JSON) : List Place → JSON → JSON
  | [], value => value
  | .elem i :: rest, value =>
    match data with
    | .array list =>
      match list[i]? with
      | some e => .array (list.set i (withValueAt e rest value))
      | none => data
    | _ => data
  | .entry k :: rest, value =>
    match data with
    | .object m =>
      match GoMap.get m k with
      | some e => .object (GoMap.set m k (withValueAt e rest value))
      | none =>
        match rest with
        | [] => .object (GoMap.set m k value)
        | _ :: _ => data
    | _ => data

/-- The places the segments of a split path address. -/
def placesOf (keys : List String) : List Place := keys.map (fun k => placeOf (segmentOf k))

/-- Signed decimal numerals: an optional sign `+` or `-` followed by one or more decimal
digits. -/
def isSignedDecimal (s : List Char) : Bool :=
  match s with
  | [] => false
  | c :: cs =>
    if c = '-' ∨ c = '+' then !cs.isEmpty && cs.all Char.isDigit
    else s.all Char.isDigit

/-- Value of a string of decimal digits. -/
def decimalValue (s : List Char) : Nat := s.foldl (fun n c => n * 10 + (c.toNat - 48)) 0

/-- The integer a signed decimal numeral denotes. -/
def signedValue (s : List Char) : Int :=
  match s with
  | [] => 0
  | c :: cs =>
    if c = '-' then -(decimalValue cs : Int)
    else if c = '+' then (decimalValue cs : Int)
    else (decimalValue s : Int)

/-- The final write of `value` into `data` through the segment `s` read as `seg`: an index
overwrites an existing element of an array, a key sets the entry of an object; anything
else leaves `data` as it is and logs. -/
def writeThrough (seg : Segment) (s : String) (data value : JSON) : JSON × List LogLine :=
  match seg with
  | .index i =>
    match data with
    | .array list =>
      if 0 ≤ i ∧ i < list.length then (.array (list.set i.toNat value), [])
      else (data, [.listIndexOutOfRange s])
    | _ => (data, [.expectedListAtFinalKey s])
  | .key k =>
    match data with
    | .object m => (.object (GoMap.set m k value), [])
    | _ => (data, [.invalidDataStructureForFinalKey s])

/-- Descending from `data` through the navigation segment `s` read as `seg`, running
`inner` on the value found there and putting its result back in place: an index selects an
existing element of an array, a key the entry of an object; anything else leaves `data` as
it is and logs. -/
def descendThrough (seg : Segment) (s : String) (data : JSON)
    (inner : JSON → Option (JSON × List LogLine)) : Option (JSON × List LogLine) :=
  match seg with
  | .index i =>
    match data with
    | .array list =>
      if 0 ≤ i ∧ i < list.length then
        match list[i.toNat]? with
        | some elem => (inner elem).map (fun r => (.array (list.set i.toNat r.1), r.2))
        | none => none
      else some (data, [.listIndexOutOfRange s])
    | _ => some (data, [.expectedListAtKey s])
  | .key k =>
    match data with
    | .object m =>
      match GoMap.get m k with
      | some nested => (inner nested).map (fun r => (.object (GoMap.set m k r.1), r.2))
      | none => some (data, [.keyNotFound s])
    | _ => some (data, [.invalidDataStructureAtKey s])

/-! ### Runs of the registry -/

/-- One event on the registry: a join, a disconnect cleanup, or a broadcast with the write
outcomes of its sessions. -/
inductive RegistryEvent where
  | join (uuid : String) (conn : Conn)
  | leave (uuid : String) (conn : Conn)
  | broadcast (uuid : String) (message : String) (write : Conn → String → Bool)

/-- Effect of one event on `roomClients`. -/
def RegistryEvent.apply (roomClients : Registry) : RegistryEvent → Registry
  | .join uuid conn => addClient roomClients uuid conn
  | .leave uuid conn => removeClient roomClients uuid conn
  | .broadcast uuid message write => (broadcastUpdate write roomClients uuid message).1

/-- The registry reached from the empty `roomClients` by a sequence of events. -/
def registryAfter (events : List RegistryEvent) : Registry :=
  events.foldl RegistryEvent.apply []

/-- The sessions of room `uuid` after one more event, `sessions` being those before it: a
join of the room adds the session unless it is there already, a leave of the room takes
it out, a broadcast to the room takes out the sessions whose write fails; events of other
rooms change nothing. -/
def remainingStep (uuid : String) (sessions : List Conn) : RegistryEvent → List Conn
  | .join u conn =>
    if u = uuid then (if conn ∈ sessions then sessions else sessions ++ [conn]) else sessions
  | .leave u conn => if u = uuid then sessions.filter (fun c => decide (c ≠ conn)) else sessions
  | .broadcast u message write =>
    if u = uuid then sessions.filter (fun c => write c message) else sessions

/-- The sessions that remain in room `uuid` after a sequence of events: those that joined
it and have neither left nor been removed by a failed delivery since. -/
def remaining (uuid : String) (events : List RegistryEvent) : List Conn :=
  events.foldl (remainingStep uuid) []

/-! ### Runs of two handlers -/

/-- The schedules in which each of the two handlers runs both of its Redis commands. -/
def Race.schedules : List (List Bool) :=
  [[true, true, false, false], [false, false, true, true],
   [true, false, true, false], [true, false, false, true],
   [false, true, true, false], [false, true, false, true]]

/-- The document after `updateJSON` has run on it with the update `msg`. -/
def applied (doc : JSON) (msg : Message) : JSON :=
  match updateJSON doc msg.Path msg.Value with
  | some (doc', _) => doc'
  | none => doc

/-- The document stored under `uuid`, when there is one and it decodes. -/
def storedDoc (rdb : Redis) (uuid : String) : Option JSON :=
  match GoMap.get rdb.data uuid with
  | some (.json doc) => some doc
  | _ => none

/-- The document the store holds under `uuid` once the schedule has run, `doc` being the
document held before, `msgA` the update of the first handler and `msgB` that of the second:
the serial result when the two calls do not overlap, and otherwise `doc` with only the
update whose `rdb.Set` comes last. -/
def Race.outcome (doc : JSON) (msgA msgB : Message) (schedule : List Bool) : JSON :=
  match schedule with
  | [true, true, false, false] => applied (applied doc msgA) msgB
  | [false, false, true, true] => applied (applied doc msgB) msgA
  | [true, false, true, false] => applied doc msgB
  | [false, true, true, false] => applied doc msgB
  | [true, false, false, true] => applied doc msgA
  | [false, true, false, true] => applied doc msgA
  | _ => doc

/-! ## Documents, stores and registries used as examples -/

/-- The document of `TestWebSocketSync` with the list of items. -/
def frodo : JSON :=
  .object [("character", .object [("name", .string "Frodo"), ("age", .number 51),
    ("items", .array [.string "ring", .string "cloak"])])]

/-- A document whose key "items" holds the list "ring", "cloak". -/
def inventory : JSON :=
  .object [("items", .array [.string "ring", .string "cloak"])]

/-- A document that has, next to "character", a key that is a numeral. -/
def archive : JSON :=
  .object [("2024", .string "archived"), ("character", .object [("age", .number 50)])]

/-- A document with the two keys "a" and "b". -/
def twoKeys : JSON := .object [("a", .number 1), ("b", .number 2)]

/-- A reachable store holding `inventory` under "room". -/
def inventoryStore : Redis := ⟨true, [("room", .json inventory)]⟩

/-- A reachable store holding `twoKeys` under "room". -/
def twoKeysStore : Redis := ⟨true, [("room", .json twoKeys)]⟩

/-- A registry with the sessions 1 and 2 in the room "room". -/
def twoSessions : Registry := [("room", [(1, true), (2, true)])]

/-! ## Lemmas on Go maps and slices -/

theorem GoMap.get_set_self {κ ν : Type} [DecidableEq κ] (m : List (κ × ν)) (k : κ) (v : ν) :
    GoMap.get (GoMap.set m k v) k = some v := by
  induction m with
  | nil => simp [GoMap.set, GoMap.get]
  | cons e rest ih =>
    obtain ⟨k', v'⟩ := e
    by_cases h : k' = k
    · simp [GoMap.set, GoMap.get, h]
    · simp [GoMap.set, GoMap.get, h, ih]

theorem GoMap.get_set_ne {κ ν : Type} [DecidableEq κ] (m : List (κ × ν)) (k k₂ : κ) (v : ν)
    (hne : k₂ ≠ k) : GoMap.get (GoMap.set m k v) k₂ = GoMap.get m k₂ := by
  induction m with
  | nil => simp [GoMap.set, GoMap.get, Ne.symm hne]
  | cons e rest ih =>
    obtain ⟨k', v'⟩ := e
    by_cases h : k' = k
    · subst h
      simp [GoMap.set, GoMap.get, Ne.symm hne]
    · by_cases h₂ : k' = k₂
      · subst h₂
        simp [GoMap.set, GoMap.get, h]
      · simp [GoMap.set, GoMap.get, h, h₂, ih]

theorem splitDots_ne_nil (s : List Char) : splitDots s ≠ [] := by
  induction s with
  | nil => simp [splitDots]
  | cons c cs ih =>
    unfold splitDots
    split
    · simp
    · split <;> simp

theorem stringsSplit_ne_nil (path : String) : stringsSplit path ≠ [] := by
  simp [stringsSplit, splitDots_ne_nil]

theorem sliceGet_of_inRange (list : List JSON) (index : Int)
    (h : 0 ≤ index ∧ index < list.length) :
    sliceGet list index = some (list.get ⟨index.toNat, by omega⟩) := by
  have hlt : index.toNat < list.length := by omega
  simp [sliceGet, h.1, List.getElem?_eq_getElem hlt]

theorem sliceSet_of_inRange (list : List JSON) (index : Int) (value : JSON)
    (h : 0 ≤ index ∧ index < list.length) :
    sliceSet list index value = some (list.set index.toNat value) := by
  have hlt : index.toNat < list.length := by omega
  simp [sliceSet, h.1, hlt]

/-! ## Unfolding of the recursive definitions -/

theorem updateAt_nil (data : JSON) (lastKey : String) (value : JSON) :
    updateAt data [] lastKey value = setFinal data lastKey value := rfl

theorem updateAt_cons (data : JSON) (key : String) (rest : List String) (lastKey : String)
    (value : JSON) :
    updateAt data (key :: rest) lastKey value =
      match Atoi key with
      | some index =>
        match data with
        | .array list =>
          if 0 ≤ index ∧ index < list.length then
            match sliceGet list index with
            | none => none
            | some elem =>
              match updateAt elem rest lastKey value with
              | none => none
              | some (elem', log) => some (.array (list.set index.toNat elem'), log)
          else some (data, [.listIndexOutOfRange key])
        | _ => some (data, [.expectedListAtKey key])
      | none =>
        match data with
        | .object nestedMap =>
          match GoMap.get nestedMap key with
          | some nestedData =>
            match updateAt nestedData rest lastKey value with
            | none => none
            | some (nestedData', log) =>
              some (.object (GoMap.set nestedMap key nestedData'), log)
          | none => some (data, [.keyNotFound key])
        | _ => some (data, [.invalidDataStructureAtKey key]) := rfl

theorem getPath_nil (data : JSON) : getPath data [] = some data := rfl

theorem getPath_cons (data : JSON) (key : String) (rest : List String) :
    getPath data (key :: rest) =
      match child data (segmentOf key) with
      | some elem => getPath elem rest
      | none => none := rfl

theorem updateAt_cons_descend (data : JSON) (key : String) (rest : List String)
    (lastKey : String) (value : JSON) :
    updateAt data (key :: rest) lastKey value =
      descendThrough (segmentOf key) key data (fun d => updateAt d rest lastKey value) := by
  simp only [updateAt_cons, segmentOf, descendThrough]
  cases hA : Atoi key with
  | none =>
    cases data with
    | object m =>
      simp only
      cases hg : GoMap.get m key with
      | none => rfl
      | some nested =>
        simp only
        cases hu : updateAt nested rest lastKey value with
        | none => rfl
        | some r => rfl
    | _ => rfl
  | some i =>
    cases data with
    | array list =>
      simp only
      by_cases h : 0 ≤ i ∧ i < list.length
      · have hlt : i.toNat < list.length := by omega
        simp only [h, and_self, if_true, sliceGet, List.getElem?_eq_getElem hlt]
        cases hu : updateAt list[i.toNat] rest lastKey value with
        | none => rfl
        | some r => rfl
      · simp only [h, if_false]
    | _ => rfl

/-! ## `updateJSON` never panics -/

theorem setFinal_isSome (data : JSON) (lastKey : String) (value : JSON) :
    ∃ r, setFinal data lastKey value = some r := by
  unfold setFinal
  split
  · split
    · split
      · rename_i h
        rw [sliceSet_of_inRange _ _ _ h]
        exact ⟨_, rfl⟩
      · exact ⟨_, rfl⟩
    · exact ⟨_, rfl⟩
  · split <;> exact ⟨_, rfl⟩

theorem updateAt_isSome (keys : List String) (lastKey : String) (value : JSON) :
    ∀ data : JSON, ∃ r, updateAt data keys lastKey value = some r := by
  induction keys with
  | nil => intro data; simpa [updateAt_nil] using setFinal_isSome data lastKey value
  | cons key rest ih =>
    intro data
    rw [updateAt_cons]
    split
    · split
      · split
        · rename_i h
          rw [sliceGet_of_inRange _ _ h]
          generalize List.get _ _ = elem
          obtain ⟨⟨elem', log⟩, hr⟩ := ih elem
          simp only [hr]
          exact ⟨_, rfl⟩
        · exact ⟨_, rfl⟩
      · exact ⟨_, rfl⟩
    · split
      · split
        · rename_i nested _
          obtain ⟨⟨nested', log⟩, hr⟩ := ih nested
          simp only [hr]
          exact ⟨_, rfl⟩
        · exact ⟨_, rfl⟩
      · exact ⟨_, rfl⟩

theorem updateJSON_isSome (data : JSON) (path : String) (value : JSON) :
    ∃ r, updateJSON data path value = some r := by
  unfold updateJSON
  simp only
  cases hl : (stringsSplit path).getLast? with
  | none => exact absurd (List.getLast?_eq_none_iff.mp hl) (stringsSplit_ne_nil path)
  | some lastKey => exact updateAt_isSome _ _ _ _

/-- C10: `updateJSON` is total. For every document, path string and value the split path
has at least one segment, so `keys[len(keys)-1]` is defined, and the call returns a
document and its log lines without a panic: every slice access it makes is in range. -/
theorem updateJSON_total (data : JSON) (path : String) (value : JSON) :
    stringsSplit path ≠ [] ∧ (updateJSON data path value).isSome = true := by
  refine ⟨stringsSplit_ne_nil path, ?_⟩
  obtain ⟨r, hr⟩ := updateJSON_isSome data path value
  simp [hr]

/-! ## `strconv.Atoi` accepts exactly the signed decimal numerals of the `int` range -/

theorem parseDigits_eq (cs : List Char) :
    ∀ n : Nat, parseDigits cs n =
      if cs.all Char.isDigit = true
      then some (cs.foldl (fun n c => n * 10 + (c.toNat - 48)) n) else none := by
  induction cs with
  | nil => intro n; simp [parseDigits]
  | cons c cs ih =>
    intro n
    by_cases hc : c.isDigit = true
    · simp [parseDigits, hc, ih]
    · simp [parseDigits, hc]

theorem ParseUint_some (s : List Char) (hne : s ≠ []) (hd : s.all Char.isDigit = true)
    (hr : decimalValue s < 2 ^ 64) : ParseUint s = some (decimalValue s) := by
  cases s with
  | nil => exact absurd rfl hne
  | cons c cs =>
    have hp := parseDigits_eq (c :: cs) 0
    rw [if_pos hd] at hp
    have hr' : decimalValue (c :: cs) < 2 ^ intSize := hr
    simp only [ParseUint, hp]
    exact if_pos hr'

theorem ParseUint_none (s : List Char)
    (h : ¬ (s ≠ [] ∧ s.all Char.isDigit = true ∧ decimalValue s < 2 ^ 64)) :
    ParseUint s = none := by
  cases s with
  | nil => rfl
  | cons c cs =>
    have hp := parseDigits_eq (c :: cs) 0
    by_cases hd : (c :: cs).all Char.isDigit = true
    · rw [if_pos hd] at hp
      have hr' : ¬ decimalValue (c :: cs) < 2 ^ intSize :=
        fun hr => h ⟨List.cons_ne_nil _ _, hd, hr⟩
      simp only [ParseUint, hp]
      exact if_neg hr'
    · rw [if_neg hd] at hp
      simp only [ParseUint, hp]

theorem isSignedDecimal_sign (c : Char) (cs : List Char) (hc : c = '-' ∨ c = '+') :
    isSignedDecimal (c :: cs) = true ↔ cs ≠ [] ∧ cs.all Char.isDigit = true := by
  simp only [isSignedDecimal, hc, if_true, Bool.and_eq_true, Bool.not_eq_true',
    List.isEmpty_eq_false, ne_eq]

theorem isSignedDecimal_digits (c : Char) (cs : List Char) (hm : c ≠ '-') (hp : c ≠ '+') :
    isSignedDecimal (c :: cs) = (c :: cs).all Char.isDigit := by
  simp only [isSignedDecimal, hm, hp, or_self, if_false]

theorem ParseInt_eq (s : List Char) :
    ParseInt s =
      if isSignedDecimal s = true ∧ -(2 ^ 63 : Int) ≤ signedValue s ∧ signedValue s < 2 ^ 63
      then some (signedValue s) else none := by
  cases s with
  | nil => simp [ParseInt, isSignedDecimal]
  | cons c cs =>
    by_cases hm : c = '-'
    · subst hm
      have hsd := isSignedDecimal_sign '-' cs (Or.inl rfl)
      have hv : signedValue ('-' :: cs) = -(decimalValue cs : Int) := by
        simp [signedValue]
      rw [hv]
      by_cases hP : cs ≠ [] ∧ cs.all Char.isDigit = true ∧ decimalValue cs < 2 ^ 64
      · have hU := ParseUint_some cs hP.1 hP.2.1 hP.2.2
        simp only [ParseInt, if_true, hU, intSize]
        by_cases hc : decimalValue cs > 2 ^ (64 - 1)
        · rw [if_pos hc, if_neg]
          rintro ⟨-, h, -⟩
          norm_num at hc
          omega
        · rw [if_neg hc, if_pos]
          norm_num at hc
          exact ⟨hsd.mpr ⟨hP.1, hP.2.1⟩, by omega, by omega⟩
      · have hU := ParseUint_none cs hP
        simp only [ParseInt, if_true, hU]
        rw [if_neg]
        rintro ⟨h0, h, -⟩
        have := hsd.mp h0
        exact hP ⟨this.1, this.2, by omega⟩
    · by_cases hp : c = '+'
      · subst hp
        have hsd := isSignedDecimal_sign '+' cs (Or.inr rfl)
        have hv : signedValue ('+' :: cs) = (decimalValue cs : Int) := by
          simp [signedValue]
        rw [hv]
        by_cases hP : cs ≠ [] ∧ cs.all Char.isDigit = true ∧ decimalValue cs < 2 ^ 64
        · have hU := ParseUint_some cs hP.1 hP.2.1 hP.2.2
          simp only [ParseInt, if_true, hU, intSize, hm, if_false]
          by_cases hc : decimalValue cs ≥ 2 ^ (64 - 1)
          · rw [if_pos hc, if_neg]
            rintro ⟨-, -, h⟩
            norm_num at hc
            omega
          · rw [if_neg hc, if_pos]
            norm_num at hc
            exact ⟨hsd.mpr ⟨hP.1, hP.2.1⟩, by omega, by omega⟩
        · have hU := ParseUint_none cs hP
          simp only [ParseInt, if_true, hU, hm, if_false]
          rw [if_neg]
          rintro ⟨h0, -, h⟩
          have := hsd.mp h0
          exact hP ⟨this.1, this.2, by omega⟩
      · have hsd := isSignedDecimal_digits c cs hm hp
        have hv : signedValue (c :: cs) = (decimalValue (c :: cs) : Int) := by
          simp [signedValue, hm, hp]
        rw [hv, hsd]
        by_cases hP : (c :: cs) ≠ [] ∧ (c :: cs).all Char.isDigit = true ∧
            decimalValue (c :: cs) < 2 ^ 64
        · have hU := ParseUint_some (c :: cs) hP.1 hP.2.1 hP.2.2
          simp only [ParseInt, hU, intSize, hm, hp, if_false]
          by_cases hc : decimalValue (c :: cs) ≥ 2 ^ (64 - 1)
          · rw [if_pos hc, if_neg]
            rintro ⟨-, -, h⟩
            norm_num at hc
            omega
          · rw [if_neg hc, if_pos]
            norm_num at hc
            exact ⟨hP.2.1, by omega, by omega⟩
        · have hU := ParseUint_none (c :: cs) hP
          simp only [ParseInt, hU, hm, hp, if_false]
          rw [if_neg]
          rintro ⟨h0, -, h⟩
          exact hP ⟨List.cons_ne_nil _ _, h0, by omega⟩

theorem Atoi_eq (s : String) :
    Atoi s =
      if isSignedDecimal s.data = true ∧ -(2 ^ 63 : Int) ≤ signedValue s.data ∧
        signedValue s.data < 2 ^ 63
      then some (signedValue s.data) else none := ParseInt_eq s.data

/-! ## Splitting a path -/

theorem splitDots_dotfree (s : List Char) (hs : '.' ∉ s) : splitDots s = [s] := by
  induction s with
  | nil => rfl
  | cons c cs ih =>
    have hc : c ≠ '.' := fun h => hs (h ▸ List.mem_cons_self _ _)
    have hcs : '.' ∉ cs := fun h => hs (List.mem_cons_of_mem _ h)
    simp [splitDots, hc, ih hcs]

theorem splitDots_append_dot (s p : List Char) (hs : '.' ∉ s) :
    splitDots (s ++ '.' :: p) = s :: splitDots p := by
  induction s with
  | nil => simp [splitDots]
  | cons c cs ih =>
    have hc : c ≠ '.' := fun h => hs (h ▸ List.mem_cons_self _ _)
    have hcs : '.' ∉ cs := fun h => hs (List.mem_cons_of_mem _ h)
    simp [splitDots, hc, ih hcs]

theorem stringsSplit_dotfree (s : String) (hs : '.' ∉ s.data) : stringsSplit s = [s] := by
  simp [stringsSplit, splitDots_dotfree _ hs]

theorem stringsSplit_append_dot (s p : String) (hs : '.' ∉ s.data) :
    stringsSplit (s ++ "." ++ p) = s :: stringsSplit p := by
  have h : (s ++ "." ++ p).data = s.data ++ '.' :: p.data := by
    simp [String.data_append]
  simp [stringsSplit, h, splitDots_append_dot _ _ hs]

theorem updateJSON_of_split (data : JSON) (path : String) (value : JSON) (nav : List String)
    (lastKey : String) (h : stringsSplit path = nav ++ [lastKey]) :
    updateJSON data path value = updateAt data nav lastKey value := by
  simp [updateJSON, h]

theorem updateJSON_single (data : JSON) (s : String) (value : JSON) (hs : '.' ∉ s.data) :
    updateJSON data s value = setFinal data s value := by
  rw [updateJSON_of_split data s value [] s (by simp [stringsSplit_dotfree s hs]),
    updateAt_nil]

theorem setFinal_eq_writeThrough (data : JSON) (s : String) (value : JSON) :
    setFinal data s value = some (writeThrough (segmentOf s) s data value) := by
  unfold setFinal segmentOf writeThrough
  cases hA : Atoi s with
  | none => cases data <;> rfl
  | some i =>
    cases data with
    | array list =>
      by_cases h : 0 ≤ i ∧ i < list.length
      · simp [h, sliceSet_of_inRange _ _ _ h]
      · simp [h]
    | _ => rfl

/-! ## The empty path and the reading of segments -/

/-- C3 (counterexample): on the object with the single key "a", the update with the empty
path is not rejected: nothing is logged and the key "" is added to the document. -/
theorem updateJSON_empty_path_adds_key :
    updateJSON (.object [("a", .number 1)]) "" (.string "x") =
        some (.object [("a", .number 1), ("", .string "x")], []) ∧
      GoMap.get [("a", JSON.number 1)] "" = none := by
  constructor <;> rfl

/-- C3 (amended): the empty path is the single segment "", read as an object key. On an
object the update sets the key "" to the value (added when absent, overwritten when
present) and logs nothing; on any other document it leaves the document as it is and logs
"Invalid data structure for final key". -/
theorem updateJSON_empty_path (data value : JSON) :
    updateJSON data "" value =
      some (match data with
        | .object m => (.object (GoMap.set m "" value), [])
        | _ => (data, [.invalidDataStructureForFinalKey ""])) := by
  rw [updateJSON_single data "" value (by simp), setFinal_eq_writeThrough]
  have h : segmentOf "" = .key "" := rfl
  rw [h]
  cases data <;> rfl

theorem updateJSON_descend (data : JSON) (s p : String) (value : JSON) (hs : '.' ∉ s.data) :
    updateJSON data (s ++ "." ++ p) value =
      descendThrough (segmentOf s) s data (fun d => updateJSON d p value) := by
  have hsplit := stringsSplit_append_dot s p hs
  have hne := stringsSplit_ne_nil p
  have hlast : (s :: stringsSplit p).getLast? = (stringsSplit p).getLast? := by
    cases hk : stringsSplit p with
    | nil => exact absurd hk hne
    | cons k ks => simp [List.getLast?_cons_cons]
  have hdrop : (s :: stringsSplit p).dropLast = s :: (stringsSplit p).dropLast := by
    cases hk : stringsSplit p with
    | nil => exact absurd hk hne
    | cons k ks => simp
  have hinner : ∀ d : JSON, updateJSON d p value =
      match (stringsSplit p).getLast? with
      | none => none
      | some lastKey => updateAt d (stringsSplit p).dropLast lastKey value := fun d => rfl
  have houter : updateJSON data (s ++ "." ++ p) value =
      match (stringsSplit p).getLast? with
      | none => none
      | some lastKey =>
        updateAt data (s :: (stringsSplit p).dropLast) lastKey value := by
    simp only [updateJSON, hsplit, hlast, hdrop]
  rw [houter]
  simp only [hinner]
  cases hl : (stringsSplit p).getLast? with
  | none => exact absurd (List.getLast?_eq_none_iff.mp hl) hne
  | some lastKey => exact updateAt_cons_descend data s _ lastKey value

/-- C4 (counterexample): the segments "-1" and "+1" are not read as object keys, and a
digit string beyond the `int` range is not read as an index. On an object, "-1" as the
final segment inserts nothing and logs "Expected list at final key"; as a navigation
segment it does not reach the key "-1" that is present; "+1" overwrites element 1 of an
array; "9223372036854775808" is set as an object key. -/
theorem updateJSON_signed_segments_are_indices :
    updateJSON (.object []) "-1" (.string "x") =
        some (.object [], [.expectedListAtFinalKey "-1"]) ∧
      updateJSON (.object [("-1", .object [])]) "-1.a" (.string "x") =
        some (.object [("-1", .object [])], [.expectedListAtKey "-1"]) ∧
      updateJSON (.array [.number 0, .number 1]) "+1" (.string "x") =
        some (.array [.number 0, .string "x"], []) ∧
      updateJSON (.object []) "9223372036854775808" (.string "x") =
        some (.object [("9223372036854775808", .string "x")], []) := by
  refine ⟨?_, ?_, ?_, ?_⟩ <;> rfl

/-- C4 (amended): a path segment is read as an array index exactly when `strconv.Atoi`
accepts it, that is when it is an optional sign `+` or `-` followed by one or more decimal
digits whose value lies in the 64-bit `int` range, and as an object key in every other
case. As the final segment an index overwrites an existing array element and a key sets an
object entry; as a navigation segment an index selects an existing array element and a
key the entry of an object. An index applied to a non-array, an index out of range
(every negative one) and a key applied to a non-object leave the document as it is. -/
theorem updateJSON_segment_reading (s : String) (hs : '.' ∉ s.data) (data value : JSON)
    (p : String) :
    segmentOf s =
        (if isSignedDecimal s.data = true ∧ -(2 ^ 63 : Int) ≤ signedValue s.data ∧
            signedValue s.data < 2 ^ 63
          then .index (signedValue s.data) else .key s) ∧
      updateJSON data s value = some (writeThrough (segmentOf s) s data value) ∧
      updateJSON data (s ++ "." ++ p) value =
        descendThrough (segmentOf s) s data (fun d => updateJSON d p value) := by
  refine ⟨?_, ?_, updateJSON_descend data s p value hs⟩
  · unfold segmentOf
    rw [Atoi_eq]
    split_ifs <;> rfl
  · rw [updateJSON_single data s value hs, setFinal_eq_writeThrough]

/-- C4 (amended), at the segment "-1" applied to an object that has the key "-1". -/
theorem updateJSON_segment_reading_witness :
    '.' ∉ ("-1" : String).data ∧
      segmentOf "-1" =
        (if isSignedDecimal ("-1" : String).data = true ∧
            -(2 ^ 63 : Int) ≤ signedValue ("-1" : String).data ∧
            signedValue ("-1" : String).data < 2 ^ 63
          then .index (signedValue ("-1" : String).data) else .key "-1") ∧
      updateJSON (.object [("-1", .object [])]) "-1" (.string "x") =
        some (writeThrough (segmentOf "-1") "-1" (.object [("-1", .object [])])
          (.string "x")) ∧
      updateJSON (.object [("-1", .object [])]) ("-1" ++ "." ++ "a") (.string "x") =
        descendThrough (segmentOf "-1") "-1" (.object [("-1", .object [])])
          (fun d => updateJSON d "a" (.string "x")) :=
  ⟨by decide, updateJSON_segment_reading "-1" (by decide) (.object [("-1", .object [])])
    (.string "x") "a"⟩

/-! ## Reading after writing -/

theorem child_replaceChild_ne (data : JSON) (seg seg' : Segment) (e : JSON)
    (hne : seg' ≠ seg) : child (replaceChild data seg e) seg' = child data seg' := by
  cases seg with
  | index i =>
    cases data with
    | array list =>
      by_cases h : 0 ≤ i ∧ i < list.length
      · cases seg' with
        | index j =>
          simp only [replaceChild, h, and_self, if_true, child]
          by_cases hj : 0 ≤ j
          · have hij : i.toNat ≠ j.toNat := by
              intro hh
              apply hne
              have : i = j := by omega
              rw [this]
            simp only [hj, if_true]
            exact List.getElem?_set_ne hij
          · simp only [hj, if_false]
        | key k => simp only [replaceChild, h, and_self, if_true, child]
      · simp only [replaceChild, h, if_false]
    | _ => rfl
  | key k =>
    cases data with
    | object m =>
      cases seg' with
      | index j => rfl
      | key k' =>
        simp only [replaceChild, child]
        exact GoMap.get_set_ne m k k' e (fun hh => hne (by rw [hh]))
    | _ => rfl

/-- The last segment can be written in the container: an index in range of an array, or a
key applied to an object. -/
theorem child_replaceChild_self (data : JSON) (seg : Segment) (e : JSON)
    (hw : (∃ i list, seg = .index i ∧ data = .array list ∧ 0 ≤ i ∧ i < list.length) ∨
      (∃ k m, seg = .key k ∧ data = .object m)) :
    child (replaceChild data seg e) seg = some e := by
  rcases hw with ⟨i, list, rfl, rfl, h0, h1⟩ | ⟨k, m, rfl, rfl⟩
  · have hlt : i.toNat < list.length := by omega
    simp [replaceChild, child, h0, h1, hlt]
  · simp only [replaceChild, child]
    exact GoMap.get_set_self m k e

theorem writable_of_child (data : JSON) (seg : Segment) (e : JSON)
    (h : child data seg = some e) :
    (∃ i list, seg = .index i ∧ data = .array list ∧ 0 ≤ i ∧ i < list.length) ∨
      (∃ k m, seg = .key k ∧ data = .object m) := by
  cases seg with
  | index i =>
    cases data with
    | array list =>
      left
      simp only [child] at h
      by_cases h0 : 0 ≤ i
      · simp only [h0, if_true] at h
        have hlt : i.toNat < list.length := by
          by_contra hge
          rw [List.getElem?_eq_none (by omega)] at h
          cases h
        exact ⟨i, list, rfl, rfl, h0, by omega⟩
      · simp only [h0, if_false] at h
        cases h
    | _ => simp [child] at h
  | key k =>
    cases data with
    | object m => exact Or.inr ⟨k, m, rfl, rfl⟩
    | _ => simp [child] at h

theorem descendThrough_of_child (data : JSON) (key : String) (e : JSON)
    (inner : JSON → Option (JSON × List LogLine))
    (h : child data (segmentOf key) = some e) :
    descendThrough (segmentOf key) key data inner =
      (inner e).map (fun r => (replaceChild data (segmentOf key) r.1, r.2)) := by
  rcases writable_of_child _ _ _ h with ⟨i, list, hs, rfl, h0, h1⟩ | ⟨k, m, hs, rfl⟩
  · rw [hs] at h ⊢
    simp only [child, h0, if_true] at h
    simp only [descendThrough, replaceChild, h0, h1, and_self, if_true, h]
  · rw [hs] at h ⊢
    simp only [child] at h
    simp only [descendThrough, replaceChild, h]

theorem writeThrough_of_writable (data : JSON) (seg : Segment) (s : String) (value : JSON)
    (hw : (∃ i list, seg = .index i ∧ data = .array list ∧ 0 ≤ i ∧ i < list.length) ∨
      (∃ k m, seg = .key k ∧ data = .object m)) :
    writeThrough seg s data value = (replaceChild data seg value, []) := by
  rcases hw with ⟨i, list, rfl, rfl, h0, h1⟩ | ⟨k, m, rfl, rfl⟩
  · simp [writeThrough, replaceChild, h0, h1]
  · rfl

theorem getPath_append (a b : List String) :
    ∀ data : JSON, getPath data (a ++ b) =
      match getPath data a with
      | some c => getPath c b
      | none => none := by
  induction a with
  | nil => intro data; rfl
  | cons k a ih =>
    intro data
    simp only [List.cons_append, getPath_cons]
    cases child data (segmentOf k) with
    | none => rfl
    | some e => exact ih e

theorem getPath_replaceChild_divergent (data : JSON) (k : String) (e : JSON)
    (q : List String) (h : divergent [segmentOf k] (q.map segmentOf) = true) :
    getPath (replaceChild data (segmentOf k) e) q = getPath data q := by
  cases q with
  | nil => simp [divergent] at h
  | cons k' q' =>
    have hne : segmentOf k' ≠ segmentOf k := by
      intro hh
      simp [divergent, hh] at h
    simp only [getPath_cons, child_replaceChild_ne _ _ _ _ hne]

theorem updateAt_target (s : String) (value : JSON) (nav : List String) :
    ∀ data c : JSON, getPath data nav = some c →
      ((∃ i list, segmentOf s = .index i ∧ c = .array list ∧ 0 ≤ i ∧ i < list.length) ∨
        (∃ k m, segmentOf s = .key k ∧ c = .object m)) →
      ∃ data', updateAt data nav s value = some (data', []) ∧
        getPath data' nav = some (replaceChild c (segmentOf s) value) ∧
        ∀ q : List String,
          divergent ((nav ++ [s]).map segmentOf) (q.map segmentOf) = true →
          getPath data' q = getPath data q := by
  induction nav with
  | nil =>
    intro data c hnav hw
    simp only [getPath_nil, Option.some.injEq] at hnav
    subst hnav
    refine ⟨replaceChild data (segmentOf s) value, ?_, rfl, ?_⟩
    · rw [updateAt_nil, setFinal_eq_writeThrough, writeThrough_of_writable _ _ _ _ hw]
    · intro q hq
      exact getPath_replaceChild_divergent data s value q hq
  | cons key nav ih =>
    intro data c hnav hw
    rw [getPath_cons] at hnav
    cases hc : child data (segmentOf key) with
    | none => simp [hc] at hnav
    | some e =>
      simp only [hc] at hnav
      obtain ⟨e', hu, hget, hframe⟩ := ih e c hnav hw
      refine ⟨replaceChild data (segmentOf key) e', ?_, ?_, ?_⟩
      · rw [updateAt_cons_descend, descendThrough_of_child _ _ _ _ hc, hu]
        rfl
      · rw [getPath_cons,
          child_replaceChild_self _ _ _ (writable_of_child _ _ _ hc)]
        exact hget
      · intro q hq
        cases q with
        | nil => simp [divergent] at hq
        | cons k' q' =>
          by_cases heq : segmentOf key = segmentOf k'
          · have hq' : divergent ((nav ++ [s]).map segmentOf) (q'.map segmentOf) = true := by
              simpa [divergent, heq] using hq
            rw [getPath_cons, getPath_cons, ← heq,
              child_replaceChild_self _ _ _ (writable_of_child _ _ _ hc), hc]
            exact hframe q' hq'
          · rw [getPath_cons, getPath_cons,
              child_replaceChild_ne _ _ _ _ (fun hh => heq hh.symm)]

/-! ## Places of a document: reading and writing without reference to segments -/

theorem valueAt_nil (data : JSON) : valueAt data [] = some data := rfl

theorem valueAt_cons (data : JSON) (l : Place) (rest : List Place) :
    valueAt data (l :: rest) =
      match childAt data l with
      | some e => valueAt e rest
      | none => none := rfl

theorem withValueAt_nil (data value : JSON) : withValueAt data [] value = value := rfl

theorem withValueAt_elem (data : JSON) (i : Nat) (rest : List Place) (value : JSON) :
    withValueAt data (.elem i :: rest) value =
      match data with
      | .array list =>
        match list[i]? with
        | some e => .array (list.set i (withValueAt e rest value))
        | none => data
      | _ => data := rfl

theorem withValueAt_entry (data : JSON) (k : String) (rest : List Place) (value : JSON) :
    withValueAt data (.entry k :: rest) value =
      match data with
      | .object m =>
        match GoMap.get m k with
        | some e => .object (GoMap.set m k (withValueAt e rest value))
        | none =>
          match rest with
          | [] => .object (GoMap.set m k value)
          | _ :: _ => data
      | _ => data := rfl

theorem placesOf_cons (k : String) (rest : List String) :
    placesOf (k :: rest) = placeOf (segmentOf k) :: placesOf rest := rfl

theorem childAt_of_child (data : JSON) (seg : Segment) (e : JSON)
    (h : child data seg = some e) : childAt data (placeOf seg) = some e := by
  cases seg with
  | index i =>
    cases data with
    | array list =>
      simp only [child] at h
      by_cases h0 : 0 ≤ i
      · simp only [h0, if_true] at h
        simpa [placeOf, childAt] using h
      · simp [h0] at h
    | _ => simp [child] at h
  | key k =>
    cases data with
    | object m => simpa [placeOf, childAt, child] using h
    | _ => simp [child] at h

theorem valueAt_of_getPath (keys : List String) :
    ∀ data x : JSON, getPath data keys = some x → valueAt data (placesOf keys) = some x := by
  induction keys with
  | nil => intro data x h; simpa [placesOf, valueAt_nil, getPath_nil] using h
  | cons k rest ih =>
    intro data x h
    rw [getPath_cons] at h
    cases hc : child data (segmentOf k) with
    | none => simp [hc] at h
    | some e =>
      simp only [hc] at h
      rw [placesOf_cons, valueAt_cons, childAt_of_child _ _ _ hc]
      exact ih e x h

theorem withValueAt_cons_of_child (data : JSON) (seg : Segment) (e : JSON)
    (rest : List Place) (value : JSON) (h : child data seg = some e) :
    withValueAt data (placeOf seg :: rest) value =
      replaceChild data seg (withValueAt e rest value) := by
  cases seg with
  | index i =>
    cases data with
    | array list =>
      simp only [child] at h
      by_cases h0 : 0 ≤ i
      · simp only [h0, if_true] at h
        have hlt : i.toNat < list.length := by
          by_contra hge
          rw [List.getElem?_eq_none (by omega)] at h
          cases h
        have h1 : i < list.length := by omega
        simp only [placeOf, withValueAt_elem, h, replaceChild, h0, h1, and_self, if_true]
      · simp [h0] at h
    | _ => simp [child] at h
  | key k =>
    cases data with
    | object m =>
      simp only [child] at h
      simp only [placeOf, withValueAt_entry, h, replaceChild]
    | _ => simp [child] at h

theorem withValueAt_last (data : JSON) (seg : Segment) (value : JSON)
    (hw : (∃ i list, seg = .index i ∧ data = .array list ∧ 0 ≤ i ∧ i < list.length) ∨
      (∃ k m, seg = .key k ∧ data = .object m)) :
    withValueAt data [placeOf seg] value = replaceChild data seg value := by
  rcases hw with ⟨i, list, rfl, rfl, h0, h1⟩ | ⟨k, m, rfl, rfl⟩
  · have hlt : i.toNat < list.length := by omega
    simp only [placeOf, withValueAt_elem, List.getElem?_eq_getElem hlt, withValueAt_nil,
      replaceChild, h0, h1, and_self, if_true]
  · simp only [placeOf, withValueAt_entry, replaceChild]
    cases hg : GoMap.get m k with
    | none => rfl
    | some e => simp only [withValueAt_nil]

theorem updateAt_eq_withValueAt (s : String) (value : JSON) (nav : List String) :
    ∀ data c : JSON, getPath data nav = some c →
      ((∃ i list, segmentOf s = .index i ∧ c = .array list ∧ 0 ≤ i ∧ i < list.length) ∨
        (∃ k m, segmentOf s = .key k ∧ c = .object m)) →
      updateAt data nav s value = some (withValueAt data (placesOf (nav ++ [s])) value, []) := by
  induction nav with
  | nil =>
    intro data c hnav hw
    simp only [getPath_nil, Option.some.injEq] at hnav
    subst hnav
    rw [updateAt_nil, setFinal_eq_writeThrough, writeThrough_of_writable _ _ _ _ hw]
    have hp : placesOf ([] ++ [s]) = [placeOf (segmentOf s)] := rfl
    rw [hp, withValueAt_last _ _ _ hw]
  | cons key nav ih =>
    intro data c hnav hw
    rw [getPath_cons] at hnav
    cases hc : child data (segmentOf key) with
    | none => simp [hc] at hnav
    | some e =>
      simp only [hc] at hnav
      rw [updateAt_cons_descend, descendThrough_of_child _ _ _ _ hc, ih e c hnav hw]
      simp only [Option.map_some', List.cons_append, placesOf_cons,
        withValueAt_cons_of_child _ _ _ _ _ hc]

theorem childAt_withValueAt_ne (data : JSON) (l l' : Place) (rest : List Place)
    (value : JSON) (hne : l' ≠ l) :
    childAt (withValueAt data (l :: rest) value) l' = childAt data l' := by
  cases l with
  | elem i =>
    rw [withValueAt_elem]
    cases data with
    | array list =>
      simp only
      cases hg : list[i]? with
      | none => rfl
      | some e =>
        cases l' with
        | elem j =>
          have hij : i ≠ j := fun hh => hne (by rw [hh])
          simp only [childAt]
          exact List.getElem?_set_ne hij
        | entry k => rfl
    | _ => rfl
  | entry k =>
    rw [withValueAt_entry]
    cases data with
    | object m =>
      simp only
      cases hg : GoMap.get m k with
      | some e =>
        cases l' with
        | elem j => rfl
        | entry k' =>
          simp only [childAt]
          exact GoMap.get_set_ne m k k' _ (fun hh => hne (by rw [hh]))
      | none =>
        cases rest with
        | nil =>
          cases l' with
          | elem j => rfl
          | entry k' =>
            simp only [childAt]
            exact GoMap.get_set_ne m k k' _ (fun hh => hne (by rw [hh]))
        | cons r rs => rfl
    | _ => rfl

theorem valueAt_withValueAt_apart (value : JSON) (p : List Place) :
    ∀ (data : JSON) (q : List Place), apart p q = true →
      valueAt (withValueAt data p value) q = valueAt data q := by
  induction p with
  | nil => intro data q h; simp [apart] at h
  | cons l rest ih =>
    intro data q h
    cases q with
    | nil => simp [apart] at h
    | cons l' q' =>
      by_cases hl : l = l'
      · subst hl
        have h' : apart rest q' = true := by simpa [apart] using h
        rw [valueAt_cons, valueAt_cons]
        cases l with
        | elem i =>
          rw [withValueAt_elem]
          cases data with
          | array list =>
            simp only
            cases hg : list[i]? with
            | none => simp only [hg]
            | some e =>
              have hlt : i < list.length := by
                by_contra hge
                rw [List.getElem?_eq_none (by omega)] at hg
                cases hg
              simp only [childAt, hg, List.getElem?_set_self hlt]
              exact ih e q' h'
          | _ => rfl
        | entry k =>
          rw [withValueAt_entry]
          cases data with
          | object m =>
            simp only
            cases hg : GoMap.get m k with
            | some e =>
              simp only [childAt, hg, GoMap.get_set_self]
              exact ih e q' h'
            | none =>
              cases rest with
              | nil => simp [apart] at h'
              | cons r rs => rfl
          | _ => rfl
      · rw [valueAt_cons, valueAt_cons,
          childAt_withValueAt_ne _ _ _ _ _ (fun hh => hl hh.symm)]

/-! ## Accepted and rejected updates -/

/-- C1: when the navigation segments of the path resolve in the document and the last
segment is an in-range index of the array reached, or a key (a segment `strconv.Atoi`
rejects) applied to the object reached, `updateJSON` logs nothing and returns the document
with the value put at the place the path addresses and nothing else touched: the result is
`withValueAt` of the document; the place addressed holds the value; every element of every
array and every entry of every object, whatever its key looks like, that lies apart from
the place addressed holds exactly what it held before; the container reached is the same
array with that one element overwritten, or the same object with that one key set (added
when absent, overwritten when present); and the same holds for reads by path. -/
theorem updateJSON_sets_target (data value : JSON) (path : String) (nav : List String)
    (s : String) (c : JSON)
    (hsplit : stringsSplit path = nav ++ [s])
    (hnav : getPath data nav = some c)
    (hlast : (∃ i list, Atoi s = some i ∧ c = .array list ∧ 0 ≤ i ∧ i < list.length) ∨
      (Atoi s = none ∧ ∃ m, c = .object m)) :
    ∃ data', updateJSON data path value = some (data', []) ∧
      data' = withValueAt data (placesOf (stringsSplit path)) value ∧
      valueAt data' (placesOf (stringsSplit path)) = some value ∧
      (∀ q : List Place, apart (placesOf (stringsSplit path)) q = true →
        valueAt data' q = valueAt data q) ∧
      getPath data' (stringsSplit path) = some value ∧
      (∀ i list, Atoi s = some i → c = .array list →
        getPath data' nav = some (.array (list.set i.toNat value))) ∧
      (∀ m, c = .object m → getPath data' nav = some (.object (GoMap.set m s value))) ∧
      ∀ q : List String,
        divergent ((stringsSplit path).map segmentOf) (q.map segmentOf) = true →
        getPath data' q = getPath data q := by
  have hw : (∃ i list, segmentOf s = .index i ∧ c = .array list ∧ 0 ≤ i ∧ i < list.length) ∨
      (∃ k m, segmentOf s = .key k ∧ c = .object m) := by
    rcases hlast with ⟨i, list, hA, hc, h0, h1⟩ | ⟨hA, m, hc⟩
    · exact Or.inl ⟨i, list, by simp [segmentOf, hA], hc, h0, h1⟩
    · exact Or.inr ⟨s, m, by simp [segmentOf, hA], hc⟩
  obtain ⟨data', hu, hget, hframe⟩ := updateAt_target s value nav data c hnav hw
  have heq : data' = withValueAt data (placesOf (stringsSplit path)) value := by
    have h2 := updateAt_eq_withValueAt s value nav data c hnav hw
    rw [hu] at h2
    simp only [Option.some.injEq, Prod.mk.injEq, and_true] at h2
    rw [hsplit]
    exact h2
  have hback : getPath data' (stringsSplit path) = some value := by
    rw [hsplit, getPath_append, hget]
    simp only [getPath_cons, child_replaceChild_self _ _ _ hw, getPath_nil]
  refine ⟨data', ?_, heq, valueAt_of_getPath _ _ _ hback, ?_, hback, ?_, ?_, ?_⟩
  · rw [updateJSON_of_split data path value nav s hsplit, hu]
  · intro q hq
    rw [heq]
    exact valueAt_withValueAt_apart value _ data q hq
  · intro i list hA hc
    rcases hlast with ⟨i', list', hA', hc', h0, h1⟩ | ⟨hA', -⟩
    · rw [hA] at hA'
      rw [hc] at hc'
      cases hA'
      cases hc'
      rw [hget, hc]
      simp [segmentOf, hA, replaceChild, h0, h1]
    · rw [hA] at hA'
      cases hA'
  · intro m hc
    rcases hlast with ⟨i', list', -, hc', -, -⟩ | ⟨hA', -⟩
    · rw [hc] at hc'
      cases hc'
    · rw [hget, hc]
      simp [segmentOf, hA', replaceChild]
  · rw [hsplit]
    exact hframe

/-- C1 at the document of `TestWebSocketSync`: the path "character.items.1" with the
value "sword" turns the items into "ring", "sword" and changes nothing else. Also, at a
document with the numeral key "2024" next to "character", the update of "character.age"
keeps the entry "2024". -/
theorem updateJSON_sets_target_witness :
    updateJSON frodo "character.items.1" (.string "sword") =
        some (.object [("character", .object [("name", .string "Frodo"), ("age", .number 51),
          ("items", .array [.string "ring", .string "sword"])])], []) ∧
      updateJSON archive "character.age" (.number 51) =
        some (.object [("2024", .string "archived"),
          ("character", .object [("age", .number 51)])], []) ∧
      apart (placesOf (stringsSplit "character.age")) [.entry "2024"] = true ∧
      ∃ data', updateJSON frodo "character.items.1" (.string "sword") = some (data', []) ∧
        data' = withValueAt frodo (placesOf (stringsSplit "character.items.1"))
          (.string "sword") ∧
        valueAt data' (placesOf (stringsSplit "character.items.1")) = some (.string "sword") ∧
        (∀ q : List Place, apart (placesOf (stringsSplit "character.items.1")) q = true →
          valueAt data' q = valueAt frodo q) ∧
        getPath data' (stringsSplit "character.items.1") = some (.string "sword") ∧
        (∀ i list, Atoi "1" = some i → JSON.array [.string "ring", .string "cloak"] = .array list →
          getPath data' ["character", "items"] =
            some (.array (list.set i.toNat (.string "sword")))) ∧
        (∀ m, JSON.array [.string "ring", .string "cloak"] = .object m →
          getPath data' ["character", "items"] =
            some (.object (GoMap.set m "1" (.string "sword")))) ∧
        ∀ q : List String,
          divergent ((stringsSplit "character.items.1").map segmentOf) (q.map segmentOf) = true →
          getPath data' q = getPath frodo q :=
  ⟨rfl, rfl, rfl, updateJSON_sets_target frodo (.string "sword") "character.items.1"
    ["character", "items"] "1" (.array [.string "ring", .string "cloak"]) rfl rfl
    (Or.inl ⟨1, [.string "ring", .string "cloak"], rfl, rfl, by decide, by decide⟩)⟩

theorem get_addClient_self (reg : Registry) (uuid : String) (conn : Conn) :
    ∃ room, GoMap.get (addClient reg uuid conn) uuid = some room := by
  unfold addClient
  exact ⟨_, GoMap.get_set_self _ _ _⟩

theorem get_addClient_ne (reg : Registry) (uuid uuid' : String) (conn : Conn)
    (hne : uuid' ≠ uuid) :
    GoMap.get (addClient reg uuid conn) uuid' = GoMap.get reg uuid' := by
  unfold addClient
  exact GoMap.get_set_ne _ _ _ _ hne

theorem get_removeClient (reg : Registry) (uuid uuid' : String) (conn : Conn) :
    GoMap.get (removeClient reg uuid conn) uuid' =
      if uuid' = uuid then (GoMap.get reg uuid).map (fun room => GoMap.delete room conn)
      else GoMap.get reg uuid' := by
  unfold removeClient
  cases hg : GoMap.get reg uuid with
  | none =>
    by_cases h : uuid' = uuid
    · simp [h, hg]
    · simp [h]
  | some room =>
    by_cases h : uuid' = uuid
    · subst h
      simp [GoMap.get_set_self]
    · simp [h, GoMap.get_set_ne _ _ _ _ h]

theorem broadcast_loop (write : Conn → String → Bool) (uuid message : String)
    (clients : List Conn) :
    ∀ (reg : Registry) (attempted : List Conn) (room : List (Conn × Bool)),
      GoMap.get reg uuid = some room →
      ∃ reg', clients.foldl
          (fun (acc : Registry × List Conn) client =>
            if write client message then (acc.1, acc.2 ++ [client])
            else (removeClient acc.1 uuid client, acc.2 ++ [client]))
          (reg, attempted) = (reg', attempted ++ clients) ∧
        GoMap.get reg' uuid =
          some (room.filter (fun e => decide (e.1 ∈ clients → write e.1 message = true))) ∧
        ∀ uuid', uuid' ≠ uuid → GoMap.get reg' uuid' = GoMap.get reg uuid' := by
  induction clients with
  | nil =>
    intro reg attempted room hg
    exact ⟨reg, by simp, by simp [hg], fun _ _ => rfl⟩
  | cons c cs ih =>
    intro reg attempted room hg
    by_cases hw : write c message = true
    · obtain ⟨reg', hfold, hroom, hrest⟩ := ih reg (attempted ++ [c]) room hg
      refine ⟨reg', ?_, ?_, hrest⟩
      · simp only [List.foldl_cons, hw, if_true]
        rw [hfold]
        simp
      · rw [hroom]
        congr 1
        apply List.filter_congr
        intro e _
        by_cases hec : e.1 = c
        · simp [hec, hw]
        · simp [hec]
    · have hg' : GoMap.get (removeClient reg uuid c) uuid = some (GoMap.delete room c) := by
        rw [get_removeClient]
        simp [hg]
      obtain ⟨reg', hfold, hroom, hrest⟩ :=
        ih (removeClient reg uuid c) (attempted ++ [c]) (GoMap.delete room c) hg'
      refine ⟨reg', ?_, ?_, ?_⟩
      · simp only [List.foldl_cons, hw]
        rw [if_neg (by simp), hfold]
        simp
      · rw [hroom]
        unfold GoMap.delete
        rw [List.filter_filter]
        congr 1
        apply List.filter_congr
        intro e _
        by_cases hec : e.1 = c
        · simp [hec, hw]
        · simp [hec]
      · intro uuid' hne
        rw [hrest uuid' hne, get_removeClient]
        simp [hne]

theorem get_broadcastUpdate (write : Conn → String → Bool) (reg : Registry)
    (uuid message : String) :
    (broadcastUpdate write reg uuid message).2 = members reg uuid ∧
      ∀ uuid', GoMap.get (broadcastUpdate write reg uuid message).1 uuid' =
        if uuid' = uuid then
          (GoMap.get reg uuid).map
            (fun room => room.filter (fun e => write e.1 message))
        else GoMap.get reg uuid' := by
  unfold broadcastUpdate members
  cases hg : GoMap.get reg uuid with
  | none =>
    refine ⟨rfl, ?_⟩
    intro uuid'
    by_cases h : uuid' = uuid
    · simp [h, hg]
    · simp [h]
  | some room =>
    obtain ⟨reg', hfold, hroom, hrest⟩ :=
      broadcast_loop write uuid message (GoMap.keys room) reg [] room hg
    simp only [hfold]
    refine ⟨by simp, ?_⟩
    intro uuid'
    by_cases h : uuid' = uuid
    · subst h
      simp only [if_true, Option.map_some', hroom]
      congr 1
      apply List.filter_congr
      intro e he
      have hmem : e.1 ∈ GoMap.keys room := List.mem_map_of_mem Prod.fst he
      simp [hmem]
    · simp only [h, if_false]
      exact hrest uuid' h

theorem keys_filter {κ ν : Type} (m : List (κ × ν)) (p : κ → Bool) :
    GoMap.keys (m.filter (fun e => p e.1)) = (GoMap.keys m).filter p := by
  induction m with
  | nil => rfl
  | cons e rest ih =>
    by_cases h : p e.1 = true
    · simp [GoMap.keys, List.filter_cons, h] at ih ⊢
      exact ih
    · simp [GoMap.keys, List.filter_cons, h] at ih ⊢
      exact ih

/-- C6: `broadcastUpdate` attempts the write on every session registered in the room,
whatever the outcome on the other sessions; afterwards the sessions of the room are the
prior ones whose write succeeded, and the entry of every other room is what it was. -/
theorem broadcastUpdate_prunes_failed (write : Conn → String → Bool) (reg : Registry)
    (uuid message : String) :
    (broadcastUpdate write reg uuid message).2 = members reg uuid ∧
      members (broadcastUpdate write reg uuid message).1 uuid =
        (members reg uuid).filter (fun c => write c message) ∧
      ∀ uuid', GoMap.get (broadcastUpdate write reg uuid message).1 uuid' =
        if uuid' = uuid then
          (GoMap.get reg uuid).map
            (fun room => room.filter (fun e => write e.1 message))
        else GoMap.get reg uuid' := by
  obtain ⟨hatt, hget⟩ := get_broadcastUpdate write reg uuid message
  refine ⟨hatt, ?_, hget⟩
  have h := hget uuid
  simp only [if_true] at h
  unfold members
  rw [h]
  cases hg : GoMap.get reg uuid with
  | none => rfl
  | some room =>
    simp only [Option.map_some']
    exact keys_filter room (fun c => write c message)

theorem apply_keeps_room (reg : Registry) (e : RegistryEvent) (uuid : String)
    (h : (GoMap.get reg uuid).isSome = true) :
    (GoMap.get (e.apply reg) uuid).isSome = true := by
  cases e with
  | join u conn =>
    by_cases hu : uuid = u
    · subst hu
      obtain ⟨room, hr⟩ := get_addClient_self reg uuid conn
      simp [RegistryEvent.apply, hr]
    · simp only [RegistryEvent.apply, get_addClient_ne reg u uuid conn hu, h]
  | leave u conn =>
    simp only [RegistryEvent.apply, get_removeClient]
    by_cases hu : uuid = u
    · subst hu
      simpa using h
    · simp only [hu, if_false, h]
  | broadcast u message write =>
    simp only [RegistryEvent.apply, (get_broadcastUpdate write reg u message).2 uuid]
    by_cases hu : uuid = u
    · subst hu
      simpa using h
    · simp only [hu, if_false, h]

theorem registryAfter_snoc (events : List RegistryEvent) (e : RegistryEvent) :
    registryAfter (events ++ [e]) = e.apply (registryAfter events) := by
  simp [registryAfter, List.foldl_append]

/-- C7 (counterexample): after one session joins the room "room" and leaves it, and also
after its only session is removed by a failed delivery, the registry still maps "room",
to the empty session set. -/
theorem registry_keeps_empty_room :
    GoMap.get (registryAfter [.join "room" 1, .leave "room" 1]) "room" = some [] ∧
      GoMap.get (registryAfter [.join "room" 1, .broadcast "room" "m" (fun _ _ => false)])
        "room" = some [] := by
  constructor <;> rfl

theorem keys_set {κ ν : Type} [DecidableEq κ] (m : List (κ × ν)) (k : κ) (v : ν) :
    GoMap.keys (GoMap.set m k v) =
      if k ∈ GoMap.keys m then GoMap.keys m else GoMap.keys m ++ [k] := by
  induction m with
  | nil => simp [GoMap.set, GoMap.keys]
  | cons e rest ih =>
    obtain ⟨k', v'⟩ := e
    by_cases h : k' = k
    · subst h
      simp [GoMap.set, GoMap.keys]
    · have hne : ¬ k = k' := fun hh => h hh.symm
      simp only [GoMap.keys] at ih
      by_cases hmem : k ∈ rest.map Prod.fst
      · simp only [hmem, if_true] at ih
        simp [GoMap.set, GoMap.keys, h, hne, hmem, ih]
      · simp only [hmem, if_false] at ih
        simp [GoMap.set, GoMap.keys, h, hne, hmem, ih]

theorem members_apply (reg : Registry) (e : RegistryEvent) (uuid : String) :
    members (e.apply reg) uuid = remainingStep uuid (members reg uuid) e := by
  cases e with
  | join u conn =>
    by_cases hu : u = uuid
    · subst hu
      simp only [RegistryEvent.apply, remainingStep, if_true, members, addClient,
        GoMap.get_set_self]
      cases hg : GoMap.get reg u with
      | none => simp [GoMap.set, GoMap.keys]
      | some room => simp only [keys_set]
    · have hne : uuid ≠ u := fun hh => hu hh.symm
      simp only [RegistryEvent.apply, remainingStep, hu, if_false, members,
        get_addClient_ne reg u uuid conn hne]
  | leave u conn =>
    by_cases hu : u = uuid
    · subst hu
      simp only [RegistryEvent.apply, remainingStep, if_true, members, get_removeClient]
      cases hg : GoMap.get reg u with
      | none => simp
      | some room =>
        simp only [Option.map_some', GoMap.delete]
        exact keys_filter room (fun c => decide (c ≠ conn))
    · have hne : uuid ≠ u := fun hh => hu hh.symm
      simp only [RegistryEvent.apply, remainingStep, hu, if_false, members,
        get_removeClient, hne]
  | broadcast u message write =>
    have hget := (get_broadcastUpdate write reg u message).2 uuid
    by_cases hu : u = uuid
    · subst hu
      simp only [if_true] at hget
      simp only [RegistryEvent.apply, remainingStep, if_true, members, hget]
      cases hg : GoMap.get reg u with
      | none => simp
      | some room =>
        simp only [Option.map_some']
        exact keys_filter room (fun c => write c message)
    · have hne : uuid ≠ u := fun hh => hu hh.symm
      simp only [hne, if_false] at hget
      simp only [RegistryEvent.apply, remainingStep, hu, if_false, members, hget]

theorem members_registryAfter (events : List RegistryEvent) (uuid : String) :
    members (registryAfter events) uuid = remaining uuid events := by
  induction events using List.reverseRecOn with
  | nil => rfl
  | append_singleton events e ih =>
    rw [registryAfter_snoc, members_apply, ih]
    simp [remaining, List.foldl_append]

theorem joined_room_isSome (events : List RegistryEvent) (uuid : String)
    (conn : Conn) (hjoined : RegistryEvent.join uuid conn ∈ events) :
    (GoMap.get (registryAfter events) uuid).isSome = true := by
  induction events using List.reverseRecOn with
  | nil => simp at hjoined
  | append_singleton events e ih =>
    rw [registryAfter_snoc]
    rcases List.mem_append.mp hjoined with hmem | hlast
    · exact apply_keeps_room _ e uuid (ih hmem)
    · simp only [List.mem_singleton] at hlast
      subst hlast
      obtain ⟨room, hr⟩ := get_addClient_self (registryAfter events) uuid conn
      simp [RegistryEvent.apply, hr]

theorem mem_set {κ ν : Type} [DecidableEq κ] (m : List (κ × ν)) (k : κ) (v : ν)
    (e : κ × ν) (he : e ∈ GoMap.set m k v) : e = (k, v) ∨ e ∈ m := by
  induction m with
  | nil =>
    simp only [GoMap.set, List.mem_singleton] at he
    exact Or.inl he
  | cons x rest ih =>
    obtain ⟨k', v'⟩ := x
    by_cases h : k' = k
    · simp only [GoMap.set, h, if_true, List.mem_cons] at he
      rcases he with he | he
      · exact Or.inl he
      · exact Or.inr (List.mem_cons_of_mem _ he)
    · simp only [GoMap.set, h, if_false, List.mem_cons] at he
      rcases he with he | he
      · exact Or.inr (he ▸ List.mem_cons_self _ _)
      · rcases ih he with h1 | h1
        · exact Or.inl h1
        · exact Or.inr (List.mem_cons_of_mem _ h1)

theorem allTrue_apply (reg : Registry) (e : RegistryEvent)
    (hreg : ∀ u room, GoMap.get reg u = some room → ∀ x ∈ room, x.2 = true) :
    ∀ u room, GoMap.get (e.apply reg) u = some room → ∀ x ∈ room, x.2 = true := by
  intro u room hg x hx
  cases e with
  | join u' conn =>
    by_cases hu : u = u'
    · subst hu
      simp only [RegistryEvent.apply, addClient, GoMap.get_set_self, Option.some.injEq] at hg
      subst hg
      rcases mem_set _ _ _ _ hx with h1 | h1
      · rw [h1]
      · cases hr : GoMap.get reg u with
        | none => simp [hr] at h1
        | some room' =>
          simp only [hr] at h1
          exact hreg u room' hr x h1
    · simp only [RegistryEvent.apply, get_addClient_ne reg u' u conn hu] at hg
      exact hreg u room hg x hx
  | leave u' conn =>
    simp only [RegistryEvent.apply, get_removeClient] at hg
    by_cases hu : u = u'
    · subst hu
      simp only [if_true] at hg
      cases hr : GoMap.get reg u with
      | none => simp [hr] at hg
      | some room' =>
        simp only [hr, Option.map_some', Option.some.injEq] at hg
        subst hg
        exact hreg u room' hr x (List.mem_of_mem_filter hx)
    · simp only [hu, if_false] at hg
      exact hreg u room hg x hx
  | broadcast u' message write =>
    simp only [RegistryEvent.apply, (get_broadcastUpdate write reg u' message).2 u] at hg
    by_cases hu : u = u'
    · subst hu
      simp only [if_true] at hg
      cases hr : GoMap.get reg u with
      | none => simp [hr] at hg
      | some room' =>
        simp only [hr, Option.map_some', Option.some.injEq] at hg
        subst hg
        exact hreg u room' hr x (List.mem_of_mem_filter hx)
    · simp only [hu, if_false] at hg
      exact hreg u room hg x hx

theorem allTrue_registryAfter (events : List RegistryEvent) :
    ∀ u room, GoMap.get (registryAfter events) u = some room → ∀ x ∈ room, x.2 = true := by
  induction events using List.reverseRecOn with
  | nil => intro u room hg; simp [registryAfter, GoMap.get] at hg
  | append_singleton events e ih =>
    rw [registryAfter_snoc]
    exact allTrue_apply _ e ih

theorem room_of_keys (room : List (Conn × Bool)) (h : ∀ x ∈ room, x.2 = true) :
    room = (GoMap.keys room).map (fun c => (c, true)) := by
  induction room with
  | nil => rfl
  | cons x rest ih =>
    obtain ⟨c, b⟩ := x
    have hb : b = true := h (c, b) (List.mem_cons_self _ _)
    have hrest := ih (fun y hy => h y (List.mem_cons_of_mem _ hy))
    simp only [GoMap.keys] at hrest
    simp only [GoMap.keys, List.map_cons, hb, ← hrest]

/-- C7 (amended): room entries are made by the first join and never removed. In every
state reached from the empty registry by joins, leaves and broadcasts with failed
deliveries, every room that has been joined is still mapped, and the map it is mapped to
holds exactly its remaining sessions, each with the value `true`: those that joined and
have neither left nor been removed by a failed delivery, the empty map once the last of
them has been removed. -/
theorem registry_room_entries_persist (events : List RegistryEvent) (uuid : String)
    (conn : Conn) (hjoined : RegistryEvent.join uuid conn ∈ events) :
    GoMap.get (registryAfter events) uuid =
        some ((remaining uuid events).map (fun c => (c, true))) ∧
      members (registryAfter events) uuid = remaining uuid events := by
  have hsome := joined_room_isSome events uuid conn hjoined
  have hmem := members_registryAfter events uuid
  refine ⟨?_, hmem⟩
  cases hg : GoMap.get (registryAfter events) uuid with
  | none => simp [hg] at hsome
  | some room =>
    have hkeys : GoMap.keys room = remaining uuid events := by
      simpa [members, hg] using hmem
    rw [← hkeys]
    exact congrArg some (room_of_keys room (allTrue_registryAfter events uuid room hg))

/-- C7 (amended), at the room "room" joined by the sessions 1 and 2: after session 1 has
left, session 2 remains; after both have left, the room is mapped to the empty map. -/
theorem registry_room_entries_persist_witness :
    RegistryEvent.join "room" 1 ∈
        [RegistryEvent.join "room" 1, .join "room" 2, .leave "room" 1, .leave "room" 2] ∧
      remaining "room" [.join "room" 1, .join "room" 2, .leave "room" 1] = [2] ∧
      remaining "room" [.join "room" 1, .join "room" 2, .leave "room" 1, .leave "room" 2] =
        [] ∧
      GoMap.get (registryAfter
          [.join "room" 1, .join "room" 2, .leave "room" 1, .leave "room" 2]) "room" =
        some ((remaining "room"
          [.join "room" 1, .join "room" 2, .leave "room" 1, .leave "room" 2]).map
            (fun c => (c, true))) ∧
      members (registryAfter
          [.join "room" 1, .join "room" 2, .leave "room" 1, .leave "room" 2]) "room" =
        remaining "room" [.join "room" 1, .join "room" 2, .leave "room" 1, .leave "room" 2] :=
  ⟨List.mem_cons_self _ _, rfl, rfl,
    registry_room_entries_persist
      [.join "room" 1, .join "room" 2, .leave "room" 1, .leave "room" 2] "room" 1
      (List.mem_cons_self _ _)⟩

/-! ## The message handler and the join -/

theorem prepare_isSome (rdb : Redis) (uuid : String) (msg : Message) :
    ∃ r, applyJSONUpdate.prepare rdb uuid msg = some r := by
  unfold applyJSONUpdate.prepare
  cases hG : rdb.Get uuid with
  | error => exact ⟨_, rfl⟩
  | redisNil => exact ⟨_, rfl⟩
  | ok val =>
    cases val with
    | undecodable => exact ⟨_, rfl⟩
    | json doc =>
      obtain ⟨⟨doc', log⟩, hu⟩ := updateJSON_isSome doc msg.Path msg.Value
      simp only [jsonUnmarshal, hu, jsonMarshal]
      exact ⟨_, rfl⟩

theorem applyJSONUpdate_isSome (rdb : Redis) (uuid : String) (msg : Message) :
    ∃ rdb', applyJSONUpdate rdb uuid msg = some rdb' := by
  unfold applyJSONUpdate
  obtain ⟨r, hr⟩ := prepare_isSome rdb uuid msg
  rw [hr]
  cases r with
  | none => exact ⟨_, rfl⟩
  | some jsonStr => exact ⟨_, rfl⟩

/-- C5 (counterexample): the update of "items.5" does not resolve in the stored document
(`updateJSON` logs "List index out of range" and leaves it unchanged), and the handler
still writes the raw message to both sessions of the room; the same happens when the
store cannot be reached, so that the document cannot be fetched. -/
theorem handleFrame_broadcasts_rejected_update :
    updateJSON inventory "items.5" (.string "x") =
        some (inventory, [.listIndexOutOfRange "5"]) ∧
      (HandleWebSocket.handleFrame (fun _ _ => true) inventoryStore twoSessions "room"
          ⟨"raw", some ⟨"items.5", .string "x"⟩⟩).map (fun r => r.2.2) = some [1, 2] ∧
      (HandleWebSocket.handleFrame (fun _ _ => true) ⟨false, []⟩ twoSessions "room"
          ⟨"raw", some ⟨"items.5", .string "x"⟩⟩).map (fun r => r.2.2) = some [1, 2] := by
  refine ⟨?_, ?_, ?_⟩ <;> rfl

/-- C5 (amended): for every well-formed message the handler step runs `applyJSONUpdate`
and then hands the raw message to `broadcastUpdate` whatever the outcome of the update:
a write is attempted on every session of the room, also when the path does not resolve
or the document cannot be fetched or decoded. -/
theorem handleFrame_always_broadcasts (write : Conn → String → Bool) (rdb : Redis)
    (reg : Registry) (uuid raw : String) (msg : Message) :
    ∃ rdb', HandleWebSocket.handleFrame write rdb reg uuid ⟨raw, some msg⟩ =
      some (rdb', (broadcastUpdate write reg uuid raw).1, members reg uuid) := by
  obtain ⟨rdb', hr⟩ := applyJSONUpdate_isSome rdb uuid msg
  refine ⟨rdb', ?_⟩
  simp only [HandleWebSocket.handleFrame, hr, (get_broadcastUpdate write reg uuid raw).1]

/-- C8: when the store holds no document under the room id, the join leaves the registry
exactly as it was, registers no session, and, the store being reachable, answers with the
not-found result. -/
theorem join_unknown_room_rejected (rdb : Redis) (uuid : String) (upgrade : Option Conn)
    (reg : Registry) (habsent : GoMap.get rdb.data uuid = none) :
    (HandleWebSocket.join rdb uuid upgrade reg).2 = reg ∧
      (∀ conn, (HandleWebSocket.join rdb uuid upgrade reg).1 ≠ .joined conn) ∧
      (rdb.reachable = true →
        HandleWebSocket.join rdb uuid upgrade reg = (.notFound, reg)) := by
  unfold HandleWebSocket.join Redis.Get
  by_cases hr : rdb.reachable = true
  · simp [hr, habsent]
  · simp [hr]

/-- C8 at the room id "invalid-uuid" of `TestWebSocketInvalidUUID`, with a store that
holds one other document and a registry that has one room. -/
theorem join_unknown_room_rejected_witness :
    GoMap.get inventoryStore.data "invalid-uuid" = none ∧
      (HandleWebSocket.join inventoryStore "invalid-uuid" (some 3) twoSessions).2 =
        twoSessions ∧
      (∀ conn, (HandleWebSocket.join inventoryStore "invalid-uuid" (some 3) twoSessions).1 ≠
        .joined conn) ∧
      (inventoryStore.reachable = true →
        HandleWebSocket.join inventoryStore "invalid-uuid" (some 3) twoSessions =
          (.notFound, twoSessions)) :=
  ⟨rfl, join_unknown_room_rejected inventoryStore "invalid-uuid" (some 3) twoSessions rfl⟩

/-! ## Two unserialised updates of one room -/

theorem prepare_of_stored (rdb : Redis) (uuid : String) (msg : Message) (doc : JSON)
    (hreach : rdb.reachable = true) (hdoc : GoMap.get rdb.data uuid = some (.json doc)) :
    applyJSONUpdate.prepare rdb uuid msg = some (some (.json (applied doc msg))) := by
  obtain ⟨⟨doc', log⟩, hu⟩ := updateJSON_isSome doc msg.Path msg.Value
  simp only [applyJSONUpdate.prepare, Redis.Get, hreach, if_true, hdoc, jsonUnmarshal, hu,
    jsonMarshal, applied]

theorem advance_start (rdb : Redis) (uuid : String) (msg : Message) (doc : JSON)
    (hreach : rdb.reachable = true) (hdoc : GoMap.get rdb.data uuid = some (.json doc)) :
    Race.advance rdb uuid msg .start = some (rdb, .prepared (.json (applied doc msg))) := by
  simp only [Race.advance, prepare_of_stored rdb uuid msg doc hreach hdoc]

theorem advance_prepared (rdb : Redis) (uuid : String) (msg : Message) (jsonStr : Payload) :
    Race.advance rdb uuid msg (.prepared jsonStr) = some ((rdb.Set uuid jsonStr).1, .done) :=
  rfl

theorem set_reachable (rdb : Redis) (uuid : String) (val : Payload)
    (hreach : rdb.reachable = true) :
    (rdb.Set uuid val).1.reachable = true ∧
      GoMap.get (rdb.Set uuid val).1.data uuid = some val := by
  simp only [Redis.Set, hreach, if_true, GoMap.get_set_self, and_self]

theorem storedDoc_of_get (rdb : Redis) (uuid : String) (doc : JSON)
    (h : GoMap.get rdb.data uuid = some (.json doc)) : storedDoc rdb uuid = some doc := by
  simp only [storedDoc, h]

/-- C9 (amended): `applyJSONUpdate` takes no lock, so the fetch-and-mutate part and the
persist part of two updates of one room can be interleaved. For a reachable store holding
a document under the room id, every schedule of the two calls ends with a document stored:
the serial result when the calls do not overlap, and, when both fetch before either
persists, the prior document with only the update persisted last, the other being lost. -/
theorem applyJSONUpdate_unserialised_outcomes (uuid : String) (msgA msgB : Message) (rdb : Redis) (doc : JSON)
    (hreach : rdb.reachable = true) (hdoc : GoMap.get rdb.data uuid = some (.json doc))
    (schedule : List Bool) (hs : schedule ∈ Race.schedules) :
    ∃ final, Race.run uuid msgA msgB rdb schedule = some final ∧
      storedDoc final.rdb uuid = some (Race.outcome doc msgA msgB schedule) := by
  have hA := advance_start rdb uuid msgA doc hreach hdoc
  have hB := advance_start rdb uuid msgB doc hreach hdoc
  have hSA := set_reachable rdb uuid (.json (applied doc msgA)) hreach
  have hSB := set_reachable rdb uuid (.json (applied doc msgB)) hreach
  have hAB := advance_start (rdb.Set uuid (.json (applied doc msgA))).1 uuid msgB
    (applied doc msgA) hSA.1 hSA.2
  have hBA := advance_start (rdb.Set uuid (.json (applied doc msgB))).1 uuid msgA
    (applied doc msgB) hSB.1 hSB.2
  have hSAB := set_reachable (rdb.Set uuid (.json (applied doc msgA))).1 uuid
    (.json (applied (applied doc msgA) msgB)) hSA.1
  have hSBA := set_reachable (rdb.Set uuid (.json (applied doc msgB))).1 uuid
    (.json (applied (applied doc msgB) msgA)) hSB.1
  have hSAB' := set_reachable (rdb.Set uuid (.json (applied doc msgA))).1 uuid
    (.json (applied doc msgB)) hSA.1
  have hSBA' := set_reachable (rdb.Set uuid (.json (applied doc msgB))).1 uuid
    (.json (applied doc msgA)) hSB.1
  simp only [Race.schedules, List.mem_cons, List.mem_singleton, List.not_mem_nil,
    or_false] at hs
  rcases hs with rfl | rfl | rfl | rfl | rfl | rfl
  · refine ⟨⟨((rdb.Set uuid (.json (applied doc msgA))).1.Set uuid
        (.json (applied (applied doc msgA) msgB))).1, .done, .done⟩, ?_,
      storedDoc_of_get _ uuid _ hSAB.2⟩
    simp [Race.run, Race.step, hA, hAB, advance_prepared]
  · refine ⟨⟨((rdb.Set uuid (.json (applied doc msgB))).1.Set uuid
        (.json (applied (applied doc msgB) msgA))).1, .done, .done⟩, ?_,
      storedDoc_of_get _ uuid _ hSBA.2⟩
    simp [Race.run, Race.step, hB, hBA, advance_prepared]
  · refine ⟨⟨((rdb.Set uuid (.json (applied doc msgA))).1.Set uuid
        (.json (applied doc msgB))).1, .done, .done⟩, ?_,
      storedDoc_of_get _ uuid _ hSAB'.2⟩
    simp [Race.run, Race.step, hA, hB, advance_prepared]
  · refine ⟨⟨((rdb.Set uuid (.json (applied doc msgB))).1.Set uuid
        (.json (applied doc msgA))).1, .done, .done⟩, ?_,
      storedDoc_of_get _ uuid _ hSBA'.2⟩
    simp [Race.run, Race.step, hA, hB, advance_prepared]
  · refine ⟨⟨((rdb.Set uuid (.json (applied doc msgA))).1.Set uuid
        (.json (applied doc msgB))).1, .done, .done⟩, ?_,
      storedDoc_of_get _ uuid _ hSAB'.2⟩
    simp [Race.run, Race.step, hA, hB, advance_prepared]
  · refine ⟨⟨((rdb.Set uuid (.json (applied doc msgB))).1.Set uuid
        (.json (applied doc msgA))).1, .done, .done⟩, ?_,
      storedDoc_of_get _ uuid _ hSBA'.2⟩
    simp [Race.run, Race.step, hA, hB, advance_prepared]

/-- C9 (amended), at the schedule where both handlers fetch before either persists. -/
theorem applyJSONUpdate_unserialised_outcomes_witness :
    twoKeysStore.reachable = true ∧
      GoMap.get twoKeysStore.data "room" = some (.json twoKeys) ∧
      [true, false, true, false] ∈ Race.schedules ∧
      ∃ final, Race.run "room" ⟨"a", .number 10⟩ ⟨"b", .number 20⟩ twoKeysStore
            [true, false, true, false] = some final ∧
        storedDoc final.rdb "room" =
          some (Race.outcome twoKeys ⟨"a", .number 10⟩ ⟨"b", .number 20⟩
            [true, false, true, false]) :=
  ⟨rfl, rfl, by decide,
    applyJSONUpdate_unserialised_outcomes "room" ⟨"a", .number 10⟩ ⟨"b", .number 20⟩
      twoKeysStore twoKeys rfl rfl [true, false, true, false] (by decide)⟩

/-- C9 (counterexample): two sessions update the keys "a" and "b" of the same document;
both handlers fetch the document before either persists. The document stored in the end
has lost the update of "a", and differs from the result of applying the two updates in
either serial order. -/
theorem applyJSONUpdate_lost_update :
    (Race.run "room" ⟨"a", .number 10⟩ ⟨"b", .number 20⟩ twoKeysStore
        [true, false, true, false]).map (fun s => storedDoc s.rdb "room") =
        some (some (.object [("a", .number 1), ("b", .number 20)])) ∧
      applied (applied twoKeys ⟨"a", .number 10⟩) ⟨"b", .number 20⟩ =
        .object [("a", .number 10), ("b", .number 20)] ∧
      applied (applied twoKeys ⟨"b", .number 20⟩) ⟨"a", .number 10⟩ =
        .object [("a", .number 10), ("b", .number 20)] ∧
      JSON.object [("a", .number 1), ("b", .number 20)] ≠
        .object [("a", .number 10), ("b", .number 20)] := by
  refine ⟨rfl, rfl, rfl, ?_⟩
  simp

end Handlers
